import Mathlib

/-!
# Verification of the Bend package-manager dependency subsystem

This development gives a shallow embedding of `src/manager.rs`: the strict
semantic-version parser and ordering of the `semver` crate (as used by
`get_latest_tag`), an order-preserving association-list model of
`toml_edit` documents (as used by `update_mod` / `remove_dep`), and an
explicit-state model of the git and filesystem operations
(`setup_repo`, `setup_remote`, `refresh_tags`, `checkout_tag`, `get`,
`remove`).  Theorems about these definitions settle the specification's
claims about the program.
-/

namespace Bend

/-! ## Generic three-way comparison machinery

The `semver` crate's `Ord` implementations are chains of lexicographic
comparisons.  We model `Ordering`-valued comparators and record, once and
for all, the properties (symmetry, equality reflection, transitivity)
needed to reason about "maximum" computations.
-/

/-- Three-way comparison on naturals, as Rust's `u64::cmp`. -/
def natCmp (a b : Nat) : Ordering :=
  if a < b then .lt else if a = b then .eq else .gt

/-- Comparator on `Unit` (everything equal). -/
def unitCmp (_ _ : Unit) : Ordering := .eq

/-- Lexicographic comparison of lists by a comparator on elements:
shorter lists that are a pre-segment of longer ones compare less, as in
Rust's slice/iterator comparison. -/
def lexCmp (c : α → α → Ordering) : List α → List α → Ordering
  | [], [] => .eq
  | [], _ :: _ => .lt
  | _ :: _, [] => .gt
  | a :: as, b :: bs => (c a b).then (lexCmp c as bs)

/-- Lexicographic comparison of pairs. -/
def pairCmp (c₁ : α → α → Ordering) (c₂ : β → β → Ordering) (x y : α × β) : Ordering :=
  (c₁ x.1 y.1).then (c₂ x.2 y.2)

/-- Comparison on a sum type, every `inl` below every `inr`. -/
def sumCmp (c₁ : α → α → Ordering) (c₂ : β → β → Ordering) : α ⊕ β → α ⊕ β → Ordering
  | .inl a, .inl b => c₁ a b
  | .inl _, .inr _ => .lt
  | .inr _, .inl _ => .gt
  | .inr a, .inr b => c₂ a b

/-- A comparator that behaves like the comparison of a linear order:
antisymmetric, reflecting equality, and transitive. -/
structure StrictCmp {α : Type} (c : α → α → Ordering) : Prop where
  symm : ∀ a b, c a b = (c b a).swap
  eq_iff : ∀ a b, c a b = .eq ↔ a = b
  lt_trans : ∀ a b d, c a b = .lt → c b d = .lt → c a d = .lt

/-! ## Semantic versions

Faithful model of `semver::Version::parse`, `Ord for Version` and
`Display for Version` (the crate's strict parser: `major.minor.patch`
with optional `-prerelease` and `+build`, `u64` components without
leading zeros, dot-separated non-empty ASCII-alphanumeric-or-hyphen
identifiers, numeric prerelease identifiers without leading zeros).
-/

/-- Rust `u8::is_ascii_digit` on a character's code point. -/
def isDigitCh (c : Char) : Bool := 48 ≤ c.toNat && c.toNat ≤ 57

/-- ASCII letter, as in the `semver` identifier grammar. -/
def isAlphaCh (c : Char) : Bool :=
  (65 ≤ c.toNat && c.toNat ≤ 90) || (97 ≤ c.toNat && c.toNat ≤ 122)

/-- Characters allowed inside prerelease/build identifiers. -/
def identChar (c : Char) : Bool := isAlphaCh c || isDigitCh c || c == '-'

/-- Numeric value of a digit character. -/
def digitVal (c : Char) : Nat := c.toNat - 48

/-- Big-endian value of a digit string, as accumulated by the crate's
`numeric_identifier` loop. -/
def digitsVal (ds : List Char) : Nat :=
  ds.foldl (fun a c => a * 10 + digitVal c) 0

/-- The crate's `numeric_identifier`: consume leading ASCII digits,
rejecting leading zeros (a second digit while the value is still zero)
and `u64` overflow; succeeds iff at least one digit was consumed,
returning the value and the remaining input. -/
def numericAux : List Char → Nat → Nat → Option (Nat × List Char)
  | c :: rest, len, value =>
    if isDigitCh c then
      if value == 0 && 0 < len then none
      else
        let v := value * 10 + digitVal c
        if v < 2 ^ 64 then numericAux rest (len + 1) v else none
    else if 0 < len then some (value, c :: rest) else none
  | [], len, value => if 0 < len then some (value, []) else none

/-- Parse one `u64` numeric identifier at the head of the input. -/
def numericIdent (l : List Char) : Option (Nat × List Char) := numericAux l 0 0

/-- Expect a literal `.`. -/
def expectDot : List Char → Option (List Char)
  | '.' :: rest => some rest
  | _ => none

/-- The crate's per-segment check: a prerelease identifier that is all
digits and longer than one character must not start with `0`. -/
def segOk (isPre : Bool) (seg : List Char) : Bool :=
  !(isPre && decide (1 < seg.length) && seg.all isDigitCh && seg.head? == some '0')

/-- Validate a completed identifier segment: non-empty and, for
prerelease position, no leading zero on a multi-digit numeric segment. -/
def checkSeg (isPre : Bool) (seg : List Char) : Option (List Char) :=
  if seg.isEmpty then none
  else if segOk isPre seg then some seg else none

/-- The crate's `prerelease_identifier`/`build_identifier` loop: consume
dot-separated identifier segments, stopping at the first character that
is neither an identifier character nor a separating dot.  `cur` is the
segment accumulated so far. -/
def parseIdentsGo (isPre : Bool) (cur : List Char) :
    List Char → Option (List (List Char) × List Char)
  | [] =>
    match checkSeg isPre cur with
    | some seg => some ([seg], [])
    | none => none
  | c :: rest =>
    if identChar c then parseIdentsGo isPre (cur ++ [c]) rest
    else if c = '.' then
      match checkSeg isPre cur with
      | some seg =>
        match parseIdentsGo isPre [] rest with
        | some (segs, rem) => some (seg :: segs, rem)
        | none => none
      | none => none
    else
      match checkSeg isPre cur with
      | some seg => some ([seg], c :: rest)
      | none => none

/-- Parse a non-empty dot-separated identifier sequence. -/
def parseIdents (isPre : Bool) (l : List Char) :
    Option (List (List Char) × List Char) :=
  parseIdentsGo isPre [] l

/-- `semver::Version`: numeric components plus prerelease and build
identifier segments (kept as raw character lists, as the crate keeps the
raw strings and re-splits them on `.` when comparing). -/
structure Version where
  major : Nat
  minor : Nat
  patch : Nat
  pre : List (List Char)
  build : List (List Char)
deriving DecidableEq

/-- `semver::Version::parse` (strict). -/
def Version.parse (s : String) : Option Version := do
  let (major, r1) ← numericIdent s.data
  let (minor, r2) ← numericIdent (← expectDot r1)
  let (patch, r3) ← numericIdent (← expectDot r2)
  let (pre, r4) ←
    match r3 with
    | '-' :: r => parseIdents true r
    | _ => some (([] : List (List Char)), r3)
  let (build, r5) ←
    match r4 with
    | '+' :: r => parseIdents false r
    | _ => some (([] : List (List Char)), r4)
  if r5.isEmpty then some ⟨major, minor, patch, pre, build⟩ else none

/-- Character comparison by code point (Rust byte comparison on ASCII). -/
def charCmp (a b : Char) : Ordering := natCmp a.toNat b.toNat

/-- Rust `str::cmp` restricted to ASCII: lexicographic by code point. -/
def strCmp : List Char → List Char → Ordering := lexCmp charCmp

/-- One prerelease identifier against another, as in `Ord for
Prerelease`: numeric identifiers (all digits) order below alphanumeric
ones; numeric against numeric by length then lexicographically (no
leading zeros, so this is numeric order); otherwise string order. -/
def preIdentCmp (a b : List Char) : Ordering :=
  match a.all isDigitCh, b.all isDigitCh with
  | true, true => (natCmp a.length b.length).then (strCmp a b)
  | true, false => .lt
  | false, true => .gt
  | false, false => strCmp a b

/-- `Ord for Prerelease`: the empty prerelease (a real release) orders
above any non-empty one; otherwise identifier-by-identifier. -/
def preCmp (a b : List (List Char)) : Ordering :=
  match a, b with
  | [], [] => .eq
  | [], _ :: _ => .gt
  | _ :: _, [] => .lt
  | a₁ :: as, b₁ :: bs => lexCmp preIdentCmp (a₁ :: as) (b₁ :: bs)

/-- Strip leading `0` characters, as the crate's build-metadata
comparison does before comparing all-digit identifiers. -/
def trimZeros (a : List Char) : List Char := a.dropWhile (· == '0')

/-- One build identifier against another, as in `Ord for BuildMetadata`:
all-digit identifiers below others, ordered numerically ignoring leading
zeros with the raw length as a tiebreak (`0 < 00 < 1 < 01 < 001 < 2`). -/
def buildIdentCmp (a b : List Char) : Ordering :=
  match a.all isDigitCh, b.all isDigitCh with
  | true, true =>
    ((natCmp (trimZeros a).length (trimZeros b).length).then
      (strCmp (trimZeros a) (trimZeros b))).then (natCmp a.length b.length)
  | true, false => .lt
  | false, true => .gt
  | false, false => strCmp a b

/-- `Ord for BuildMetadata` on segment lists. -/
def buildCmp : List (List Char) → List (List Char) → Ordering :=
  lexCmp buildIdentCmp

/-- `Ord for Version`: major, then minor, then patch, then prerelease,
then build metadata. -/
def Version.cmp (a b : Version) : Ordering :=
  (natCmp a.major b.major).then
    ((natCmp a.minor b.minor).then
      ((natCmp a.patch b.patch).then
        ((preCmp a.pre b.pre).then (buildCmp a.build b.build))))

/-- Little-endian decimal digits of `n` (with `fuel ≥ n` sufficient). -/
def natCharsAux : Nat → Nat → List Char
  | 0, _ => []
  | _ + 1, 0 => []
  | fuel + 1, n + 1 =>
    Nat.digitChar ((n + 1) % 10) :: natCharsAux fuel ((n + 1) / 10)

/-- Decimal rendering of a natural, as Rust's `u64` `Display`. -/
def natChars (n : Nat) : List Char :=
  if n = 0 then ['0'] else (natCharsAux n n).reverse

/-- Join identifier segments with `.`, as the crate renders prerelease
and build metadata. -/
def joinDots : List (List Char) → List Char
  | [] => []
  | [s] => s
  | s :: t :: rest => s ++ '.' :: joinDots (t :: rest)

/-- `Display for Version`. -/
def Version.render (v : Version) : String :=
  ⟨natChars v.major ++ '.' :: natChars v.minor ++ '.' :: natChars v.patch
    ++ (if v.pre.isEmpty then [] else '-' :: joinDots v.pre)
    ++ (if v.build.isEmpty then [] else '+' :: joinDots v.build)⟩

/-! ## Errors

The program's error type is `Box<dyn Error>` built from formatted
strings; we model each distinct error produced by `manager.rs` as a
constructor carrying the data interpolated into its message.
-/

/-- A `git2::Error`, reduced to what the program inspects: whether its
class is `ErrorClass::Reference`, and its message. -/
structure GitError where
  isReference : Bool
  message : String
deriving DecidableEq

/-- The errors `manager.rs` can produce. -/
inductive BendError where
  /-- `"No tags found"` from `get_latest_tag`. -/
  | noTagsFound
  /-- `"Version '{tag}' not found on '{url}'"` from `setup_repo`. -/
  | versionNotFound (version url : String)
  /-- An opaque infrastructure error (`err.message().into()` and other
  propagated git/io failures). -/
  | gitInfra (msg : String)
  /-- `"Dependency '{name}' not found"` from `remove_dep`. -/
  | dependencyNotFound (name : String)
  /-- `"invalid 'mod.toml' format"` from `get_config`/`get_deps`. -/
  | invalidManifest
  /-- An io error reading `mod.toml`. -/
  | ioError (msg : String)
  /-- The `expect("Invalid repository URL")` panic in `repository_name`. -/
  | invalidRepositoryUrl
deriving DecidableEq

/-- `get_latest_tag`, over the repository's tag names: fold keeping the
greatest parsed version (unparseable tags skipped), rendering it, or the
no-tags error. -/
def pickLatest (acc : Option Version) (tag : String) : Option Version :=
  match Version.parse tag with
  | none => acc
  | some v =>
    match acc with
    | none => some v
    | some latest => if Version.cmp v latest = .gt then some v else some latest

/-- `get_latest_tag` on a list of tag names. -/
def getLatestTag (tags : List String) : Except BendError String :=
  match tags.foldl pickLatest none with
  | some v => .ok v.render
  | none => .error .noTagsFound

/-! ## TOML documents

Model of the `toml_edit` values `manager.rs` manipulates: an item is a
string scalar or a table-like value (standard or inline table), an
order-preserving association list of keyed items.  `toml_edit`'s
`insert` replaces the value of an existing key in place (keeping its
position) and appends new keys at the end; `remove` deletes the entry
and shifts the rest up, leaving every other entry untouched.
-/

/-- A TOML item: a string value or a table-like value. -/
inductive TItem where
  | str : String → TItem
  | table : List (String × TItem) → TItem

/-- Association-list lookup (first match), as `TableLike::get`. -/
def assoc (l : List (String × α)) (k : String) : Option α :=
  match l with
  | [] => none
  | (k', v) :: rest => if k' = k then some v else assoc rest k

/-- `TableLike::insert`: replace in place if present, else append. -/
def assocSet (l : List (String × α)) (k : String) (v : α) : List (String × α) :=
  match l with
  | [] => [(k, v)]
  | (k', v') :: rest =>
    if k' = k then (k', v) :: rest else (k', v') :: assocSet rest k v

/-- `TableLike::remove`: remove the entry if present, returning it. -/
def assocRemove (l : List (String × α)) (k : String) :
    Option α × List (String × α) :=
  match l with
  | [] => (none, [])
  | (k', v') :: rest =>
    if k' = k then (some v', rest)
    else
      let (r, rest') := assocRemove rest k
      (r, (k', v') :: rest')

/-- A manifest document: the top-level table of `mod.toml`. -/
abbrev Doc := List (String × TItem)

/-- `new_dependency`: a bare version string, or an inline table with
`version` and `alias` fields. -/
def newDependency (version : String) (aliasArg : Option String) : TItem :=
  match aliasArg with
  | some a => .table [("version", .str version), ("alias", .str a)]
  | none => .str version

/-- `update_existing_dependency`: replace a non-table entry wholesale;
update a table-like entry's `version` in place and set or remove its
`alias`, leaving other fields untouched. -/
def updateExistingDependency (depItem : TItem) (version : String)
    (aliasArg : Option String) : TItem :=
  match depItem with
  | .str _ => newDependency version aliasArg
  | .table t =>
    let t₁ := assocSet t "version" (.str version)
    match aliasArg with
    | some a => .table (assocSet t₁ "alias" (.str a))
    | none => .table (assocRemove t₁ "alias").2

/-- `update_mod` on a parsed document: `get_deps` (creating an empty
`dependencies` table if absent, failing if it is not table-like), then
insert or update the entry for `name`. -/
def updateMod (doc : Doc) (name version : String) (aliasArg : Option String) :
    Except BendError Doc :=
  match assoc doc "dependencies" with
  | some (.str _) => .error .invalidManifest
  | some (.table deps) =>
    let deps' :=
      match assoc deps name with
      | some item => assocSet deps name (updateExistingDependency item version aliasArg)
      | none => assocSet deps name (newDependency version aliasArg)
    .ok (assocSet doc "dependencies" (.table deps'))
  | none =>
    let deps' := assocSet ([] : Doc) name (newDependency version aliasArg)
    .ok (doc ++ [("dependencies", .table deps')])

/-- `remove_dep` on a parsed document: error if the entry is absent,
otherwise delete it (the file is only rewritten on success). -/
def removeDepDoc (doc : Doc) (name : String) : Except BendError Doc :=
  match assoc doc "dependencies" with
  | some (.str _) => .error .invalidManifest
  | some (.table deps) =>
    match assocRemove deps name with
    | (none, _) => .error (.dependencyNotFound name)
    | (some _, deps') => .ok (assocSet doc "dependencies" (.table deps'))
  | none => .error (.dependencyNotFound name)

/-! ## Repositories, remotes, and the world

Explicit-state model of the git operations.  A local mirror has tag
references, named remotes, a checked-out head and other resolvable
revisions; the world maps local paths to mirrors and remote URLs to the
remote repositories' tag sets, holds the manifest file, counts
repository initialisations (`Repository::init`), and may carry an
injected failure for the checkout step (a `checkout_tree`/`set_head`
infrastructure failure). -/

/-- State of a local mirror repository. -/
structure RepoState where
  tags : List String
  remotes : List (String × String)
  head : Option String
  extraRevs : List String
deriving DecidableEq

/-- The manifest file on disk. -/
inductive ManifestFile where
  | missing
  | invalid
  | parsed (doc : Doc)

/-- A remote repository, by its tag set. -/
structure RemoteRepo where
  tags : List String
deriving DecidableEq

/-- The world: local mirrors by path, remote repositories by URL, the
manifest file, an initialisation counter, and an optional injected
checkout failure. -/
structure World where
  mirrors : List (String × RepoState)
  remotes : List (String × RemoteRepo)
  manifest : ManifestFile
  initCount : Nat
  checkoutFault : Option GitError

/-- `delete_local_tags`: delete every local tag. -/
def deleteLocalTags (repo : RepoState) : RepoState := { repo with tags := [] }

/-- A fetch with refspec `refs/tags/*:refs/tags/*`: add the remote's
tags to the local tag set (failing if the URL does not resolve). -/
def fetchTags (w : World) (repo : RepoState) (url : String) :
    Except GitError RepoState :=
  match assoc w.remotes url with
  | none => .error ⟨false, "failed to resolve address"⟩
  | some r =>
    .ok { repo with
          tags := repo.tags ++ r.tags.filter (fun t => !repo.tags.contains t) }

/-- `refresh_tags`: delete all local tags, then fetch the remote's. -/
def refreshTags (w : World) (repo : RepoState) (url : String) :
    Except GitError RepoState :=
  fetchTags w (deleteLocalTags repo) url

/-- `setup_remote`: create the named remote if absent, repoint it if its
URL differs, reuse it otherwise; in every case conclude with
`refresh_tags`. -/
def setupRemote (w : World) (repo : RepoState) (url remoteName : String) :
    Except GitError RepoState :=
  let repo' :=
    match assoc repo.remotes remoteName with
    | some u =>
      if u ≠ url then { repo with remotes := assocSet repo.remotes remoteName url }
      else repo
    | none => { repo with remotes := assocSet repo.remotes remoteName url }
  refreshTags w repo' url

/-- `checkout_tag`: `revparse_ext` fails with class `Reference` when the
revision does not exist; otherwise the tree checkout and `set_head` may
fail with the world's injected fault, else the head moves to the tag. -/
def checkoutTag (w : World) (repo : RepoState) (tag : String) :
    Except GitError RepoState :=
  if repo.tags.contains tag || repo.extraRevs.contains tag then
    match w.checkoutFault with
    | some e => .error e
    | none => .ok { repo with head := some tag }
  else .error ⟨true, "revspec not found"⟩

/-- A freshly initialised, empty repository (`Repository::init`). -/
def emptyRepo : RepoState := ⟨[], [], none, []⟩

/-- `setup_repo`: open the mirror at `path` or initialise an empty one,
set up the `origin` remote (which refreshes tags), resolve the target
version (the requested one verbatim, else the latest tag), check it out
classifying the failure, and return the resolved version. -/
def setupRepo (w : World) (path url : String) (version : Option String) :
    Except BendError (String × World) :=
  let (repo₀, w₁) :=
    match assoc w.mirrors path with
    | some r => (r, w)
    | none => (emptyRepo, { w with initCount := w.initCount + 1 })
  match setupRemote w₁ repo₀ url "origin" with
  | .error e => .error (.gitInfra e.message)
  | .ok repo₁ =>
    let tagE : Except BendError String :=
      match version with
      | some ver => .ok ver
      | none => getLatestTag repo₁.tags
    match tagE with
    | .error e => .error e
    | .ok tag =>
      match checkoutTag w₁ repo₁ tag with
      | .error err =>
        if err.isReference then .error (.versionNotFound tag url)
        else .error (.gitInfra err.message)
      | .ok repo₂ =>
        .ok (tag, { w₁ with mirrors := assocSet w₁.mirrors path repo₂ })

/-- `rsplit_once`: split at the last occurrence of `sep`. -/
def rsplitOnce (sep : Char) : List Char → Option (List Char × List Char)
  | [] => none
  | c :: rest =>
    match rsplitOnce sep rest with
    | some (b, a) => some (c :: b, a)
    | none => if c = sep then some ([], rest) else none

/-- `repository_name`: the segment after the last `/`; `none` models the
`expect("Invalid repository URL")` panic. -/
def repository_name (name : String) : Option String :=
  (rsplitOnce '/' name.data).map fun p => ⟨p.2⟩

/-- `get_config`: read and parse `mod.toml`. -/
def getConfig (m : ManifestFile) : Except BendError Doc :=
  match m with
  | .parsed doc => .ok doc
  | .invalid => .error .invalidManifest
  | .missing => .error (.ioError "mod.toml not found")

/-- `get`: derive the URL and local folder, materialise the repository,
then record the resolved version in the manifest. -/
def get (w : World) (name : String) (version aliasArg : Option String) :
    Except BendError World :=
  let url := "https://" ++ name ++ ".git"
  let repoNameE : Except BendError String :=
    match aliasArg with
    | some a => .ok a
    | none =>
      match repository_name name with
      | some r => .ok r
      | none => .error .invalidRepositoryUrl
  match repoNameE with
  | .error e => .error e
  | .ok repoName =>
    let folder := ".bend/" ++ repoName
    match setupRepo w folder url version with
    | .error e => .error e
    | .ok (tag, w₁) =>
      match getConfig w₁.manifest with
      | .error e => .error e
      | .ok doc =>
        match updateMod doc name tag aliasArg with
        | .ok doc' => .ok { w₁ with manifest := .parsed doc' }
        | .error e => .error e

/-- `remove_dep` at the file level: on any error the manifest file is
left unchanged (the rewrite happens only after a successful removal). -/
def removeDepW (name : String) (w : World) : Except BendError Unit × World :=
  match getConfig w.manifest with
  | .error e => (.error e, w)
  | .ok doc =>
    match removeDepDoc doc name with
    | .ok doc' => (.ok (), { w with manifest := .parsed doc' })
    | .error e => (.error e, w)

/-- `remove_repo`: delete the mirror directory if it exists; absence is
not an error. -/
def removeRepoW (name : String) (w : World) : Except BendError Unit × World :=
  match repository_name name with
  | none => (.error .invalidRepositoryUrl, w)
  | some repoName =>
    let folder := ".bend/" ++ repoName
    match assoc w.mirrors folder with
    | some _ => (.ok (), { w with mirrors := (assocRemove w.mirrors folder).2 })
    | none => (.ok (), w)

/-- `remove`: manifest removal first; only on success delete the mirror. -/
def remove (name : String) (w : World) : Except BendError Unit × World :=
  match removeDepW name w with
  | (.ok _, w₁) => removeRepoW name w₁
  | (.error e, w₁) => (.error e, w₁)

/-! ## Order-embedding keys

Auxiliary key functions exhibiting each comparator of the version order
as the pullback of a combination of basic comparators, used to establish
the `StrictCmp` properties. -/

/-- Key for `preIdentCmp`: numeric identifiers (compared by length then
lexicographically) below alphanumeric ones. -/
def preIdentKey (a : List Char) : (Nat × List Char) ⊕ List Char :=
  match a.all isDigitCh with
  | true => .inl (a.length, a)
  | false => .inr a

/-- Key for `buildIdentCmp`: all-digit identifiers (by trimmed length,
trimmed digits, raw length) below others. -/
def buildIdentKey (a : List Char) : ((Nat × List Char) × Nat) ⊕ List Char :=
  match a.all isDigitCh with
  | true => .inl (((trimZeros a).length, trimZeros a), a.length)
  | false => .inr a

/-- Key for `preCmp`: the empty prerelease above all non-empty ones. -/
def preKey (a : List (List Char)) : List (List Char) ⊕ Unit :=
  match a with
  | [] => .inr ()
  | l => .inl l

/-- Key for `Version.cmp`. -/
def vKey (v : Version) :
    Nat × (Nat × (Nat × (List (List Char) × List (List Char)))) :=
  (v.major, (v.minor, (v.patch, (v.pre, v.build))))

end Bend

/-! # Theorems -/

namespace Bend

/-! ## Ordering and comparator theory -/

theorem then_eq_eq {a b : Ordering} : a.then b = .eq ↔ a = .eq ∧ b = .eq := by
  cases a <;> simp [Ordering.then]

theorem then_eq_lt {a b : Ordering} :
    a.then b = .lt ↔ a = .lt ∨ (a = .eq ∧ b = .lt) := by
  cases a <;> simp [Ordering.then]

theorem swap_then (a b : Ordering) : (a.then b).swap = a.swap.then b.swap := by
  cases a <;> rfl

theorem swap_eq_gt {a : Ordering} : a.swap = .gt ↔ a = .lt := by
  cases a <;> simp [Ordering.swap]

theorem swap_eq_lt {a : Ordering} : a.swap = .lt ↔ a = .gt := by
  cases a <;> simp [Ordering.swap]

theorem natCmp_eq_lt {a b : Nat} : natCmp a b = .lt ↔ a < b := by
  simp only [natCmp]
  split_ifs with h1 h2 <;> simp_all

theorem natCmp_eq_eq {a b : Nat} : natCmp a b = .eq ↔ a = b := by
  simp only [natCmp]
  split_ifs with h1 h2 <;> simp_all
  omega

theorem natCmp_strict : StrictCmp natCmp := by
  refine ⟨?_, fun a b => natCmp_eq_eq, ?_⟩
  · intro a b
    rcases Nat.lt_trichotomy a b with h | h | h
    · have h1 : natCmp a b = .lt := natCmp_eq_lt.2 h
      have h2 : natCmp b a = .gt := by
        simp only [natCmp]
        rw [if_neg (by omega), if_neg (by omega)]
      rw [h1, h2]; rfl
    · subst h
      rw [natCmp_eq_eq.2 rfl]; rfl
    · have h1 : natCmp b a = .lt := natCmp_eq_lt.2 h
      have h2 : natCmp a b = .gt := by
        simp only [natCmp]
        rw [if_neg (by omega), if_neg (by omega)]
      rw [h1, h2]; rfl
  · intro a b d hab hbd
    exact natCmp_eq_lt.2 (Nat.lt_trans (natCmp_eq_lt.1 hab) (natCmp_eq_lt.1 hbd))

theorem unitCmp_strict : StrictCmp unitCmp := by
  refine ⟨fun a b => rfl, fun a b => ?_, fun a b d h _ => h⟩
  simp [unitCmp]

theorem StrictCmp.refl {c : α → α → Ordering} (h : StrictCmp c) (a : α) :
    c a a = .eq := (h.eq_iff a a).2 rfl

theorem StrictCmp.gt_iff {c : α → α → Ordering} (h : StrictCmp c) (a b : α) :
    c a b = .gt ↔ c b a = .lt := by
  rw [h.symm a b, swap_eq_gt]

theorem StrictCmp.not_gt_cases {c : α → α → Ordering} (h : StrictCmp c) {a b : α}
    (hab : c a b ≠ .gt) : c a b = .lt ∨ a = b := by
  cases hc : c a b with
  | lt => exact .inl rfl
  | eq => exact .inr ((h.eq_iff a b).1 hc)
  | gt => exact absurd hc hab

theorem StrictCmp.le_trans {c : α → α → Ordering} (h : StrictCmp c) {a b d : α}
    (hab : c a b ≠ .gt) (hbd : c b d ≠ .gt) : c a d ≠ .gt := by
  rcases h.not_gt_cases hab with h1 | rfl
  · rcases h.not_gt_cases hbd with h2 | rfl
    · rw [h.lt_trans a b d h1 h2]; simp
    · rw [h1]; simp
  · exact hbd

theorem StrictCmp.comap {β : Type} {c : β → β → Ordering} (h : StrictCmp c)
    (f : α → β) (hf : ∀ a b, f a = f b → a = b) :
    StrictCmp (fun a b => c (f a) (f b)) := by
  refine ⟨fun a b => h.symm _ _, fun a b => ?_, fun a b d => h.lt_trans _ _ _⟩
  rw [h.eq_iff]
  exact ⟨hf a b, fun hab => by rw [hab]⟩

theorem pairCmp_strict {α β : Type} {c₁ : α → α → Ordering} {c₂ : β → β → Ordering}
    (h₁ : StrictCmp c₁) (h₂ : StrictCmp c₂) : StrictCmp (pairCmp c₁ c₂) := by
  refine ⟨?_, ?_, ?_⟩
  · intro a b
    simp only [pairCmp, swap_then, h₁.symm a.1 b.1, h₂.symm a.2 b.2]
  · intro a b
    simp only [pairCmp, then_eq_eq, h₁.eq_iff, h₂.eq_iff]
    constructor
    · rintro ⟨hl, hr⟩; exact Prod.ext hl hr
    · rintro rfl; exact ⟨rfl, rfl⟩
  · intro a b d hab hbd
    rw [pairCmp, then_eq_lt] at hab hbd ⊢
    rcases hab with h1 | ⟨h1, h1'⟩ <;> rcases hbd with h2 | ⟨h2, h2'⟩
    · exact .inl (h₁.lt_trans _ _ _ h1 h2)
    · rw [(h₁.eq_iff _ _).1 h2] at h1
      exact .inl h1
    · rw [← (h₁.eq_iff _ _).1 h1] at h2
      exact .inl h2
    · rw [(h₁.eq_iff _ _).1 h1, (h₁.eq_iff _ _).1 h2]
      exact .inr ⟨h₁.refl _, h₂.lt_trans _ _ _ h1' h2'⟩

theorem sumCmp_strict {α β : Type} {c₁ : α → α → Ordering} {c₂ : β → β → Ordering}
    (h₁ : StrictCmp c₁) (h₂ : StrictCmp c₂) : StrictCmp (sumCmp c₁ c₂) := by
  refine ⟨?_, ?_, ?_⟩
  · rintro (a | a) (b | b)
    · exact h₁.symm a b
    · rfl
    · rfl
    · exact h₂.symm a b
  · rintro (a | a) (b | b) <;> simp [sumCmp, h₁.eq_iff, h₂.eq_iff]
  · rintro (a | a) (b | b) (d | d) hab hbd <;> simp_all [sumCmp]
    · exact h₁.lt_trans _ _ _ hab hbd
    · exact h₂.lt_trans _ _ _ hab hbd

theorem lexCmp_strict {c : α → α → Ordering} (h : StrictCmp c) :
    StrictCmp (lexCmp c) := by
  refine ⟨?_, ?_, ?_⟩
  · intro a
    induction a with
    | nil => intro b; cases b <;> rfl
    | cons x xs ih =>
      intro b
      cases b with
      | nil => rfl
      | cons y ys =>
        show (c x y).then (lexCmp c xs ys) = ((c y x).then (lexCmp c ys xs)).swap
        rw [swap_then, ← h.symm, ← ih ys]
  · intro a
    induction a with
    | nil => intro b; cases b <;> simp [lexCmp]
    | cons x xs ih =>
      intro b
      cases b with
      | nil => simp [lexCmp]
      | cons y ys =>
        show (c x y).then (lexCmp c xs ys) = .eq ↔ _
        simp [then_eq_eq, h.eq_iff, ih ys]
  · intro a
    induction a with
    | nil =>
      intro b d hab hbd
      cases b with
      | nil => simp [lexCmp] at hab
      | cons y ys =>
        cases d with
        | nil => simp [lexCmp] at hbd
        | cons z zs => rfl
    | cons x xs ih =>
      intro b d hab hbd
      cases b with
      | nil => simp [lexCmp] at hab
      | cons y ys =>
        cases d with
        | nil => simp [lexCmp] at hbd
        | cons z zs =>
          rw [show lexCmp c (x :: xs) (y :: ys) = (c x y).then (lexCmp c xs ys) from rfl,
            then_eq_lt] at hab
          rw [show lexCmp c (y :: ys) (z :: zs) = (c y z).then (lexCmp c ys zs) from rfl,
            then_eq_lt] at hbd
          rw [show lexCmp c (x :: xs) (z :: zs) = (c x z).then (lexCmp c xs zs) from rfl,
            then_eq_lt]
          rcases hab with h1 | ⟨h1, h1'⟩ <;> rcases hbd with h2 | ⟨h2, h2'⟩
          · exact .inl (h.lt_trans _ _ _ h1 h2)
          · rw [(h.eq_iff _ _).1 h2] at h1
            exact .inl h1
          · rw [← (h.eq_iff _ _).1 h1] at h2
            exact .inl h2
          · rw [(h.eq_iff _ _).1 h1, (h.eq_iff _ _).1 h2]
            exact .inr ⟨h.refl _, ih _ _ h1' h2'⟩

theorem StrictCmp.congr {c c' : α → α → Ordering} (hcc : ∀ a b, c a b = c' a b)
    (h : StrictCmp c) : StrictCmp c' :=
  ⟨fun a b => by rw [← hcc, ← hcc]; exact h.symm a b,
   fun a b => by rw [← hcc]; exact h.eq_iff a b,
   fun a b d h1 h2 => by
     rw [← hcc] at h1 h2 ⊢
     exact h.lt_trans _ _ _ h1 h2⟩

theorem charToNat_inj : ∀ a b : Char, a.toNat = b.toNat → a = b :=
  fun _ _ h => Char.ext (UInt32.ext h)

theorem charCmp_strict : StrictCmp charCmp := by
  unfold charCmp
  exact natCmp_strict.comap Char.toNat charToNat_inj

theorem strCmp_strict : StrictCmp strCmp := by
  unfold strCmp
  exact lexCmp_strict charCmp_strict

theorem preIdentCmp_eq_key (a b : List Char) :
    preIdentCmp a b
      = sumCmp (pairCmp natCmp strCmp) strCmp (preIdentKey a) (preIdentKey b) := by
  unfold preIdentCmp preIdentKey
  cases a.all isDigitCh <;> cases b.all isDigitCh <;> rfl

theorem preIdentKey_inj : ∀ a b, preIdentKey a = preIdentKey b → a = b := by
  intro a b
  unfold preIdentKey
  cases a.all isDigitCh <;> cases b.all isDigitCh <;> intro h <;> simp_all

theorem preIdentCmp_strict : StrictCmp preIdentCmp :=
  StrictCmp.congr (fun a b => (preIdentCmp_eq_key a b).symm)
    ((sumCmp_strict (pairCmp_strict natCmp_strict strCmp_strict) strCmp_strict).comap
      preIdentKey preIdentKey_inj)

theorem preCmp_eq_key (a b : List (List Char)) :
    preCmp a b = sumCmp (lexCmp preIdentCmp) unitCmp (preKey a) (preKey b) := by
  cases a <;> cases b <;> rfl

theorem preKey_inj : ∀ a b, preKey a = preKey b → a = b := by
  intro a b
  cases a <;> cases b <;> intro h <;> simp_all [preKey]

theorem preCmp_strict : StrictCmp preCmp :=
  StrictCmp.congr (fun a b => (preCmp_eq_key a b).symm)
    ((sumCmp_strict (lexCmp_strict preIdentCmp_strict) unitCmp_strict).comap
      preKey preKey_inj)

theorem eq_of_trimZeros_of_length {a b : List Char}
    (hd : trimZeros a = trimZeros b) (hl : a.length = b.length) : a = b := by
  have ha := List.takeWhile_append_dropWhile (p := fun c => c == '0') (l := a)
  have hb := List.takeWhile_append_dropWhile (p := fun c => c == '0') (l := b)
  have htka : a.takeWhile (fun c => c == '0')
      = List.replicate (a.takeWhile (fun c => c == '0')).length '0' := by
    rw [List.eq_replicate_iff]
    exact ⟨rfl, fun c hc => by simpa using List.mem_takeWhile_imp hc⟩
  have htkb : b.takeWhile (fun c => c == '0')
      = List.replicate (b.takeWhile (fun c => c == '0')).length '0' := by
    rw [List.eq_replicate_iff]
    exact ⟨rfl, fun c hc => by simpa using List.mem_takeWhile_imp hc⟩
  have hlen : (a.takeWhile (fun c => c == '0')).length
      = (b.takeWhile (fun c => c == '0')).length := by
    have la := congrArg List.length ha
    have lb := congrArg List.length hb
    simp only [List.length_append] at la lb
    have : (a.dropWhile (fun c => c == '0')).length
        = (b.dropWhile (fun c => c == '0')).length := by
      simpa [trimZeros] using congrArg List.length hd
    omega
  calc a = a.takeWhile (fun c => c == '0') ++ a.dropWhile (fun c => c == '0') := ha.symm
    _ = b.takeWhile (fun c => c == '0') ++ b.dropWhile (fun c => c == '0') := by
        rw [htka, htkb, hlen]
        simpa [trimZeros] using hd
    _ = b := hb

theorem buildIdentCmp_eq_key (a b : List Char) :
    buildIdentCmp a b
      = sumCmp (pairCmp (pairCmp natCmp strCmp) natCmp) strCmp
          (buildIdentKey a) (buildIdentKey b) := by
  unfold buildIdentCmp buildIdentKey
  cases a.all isDigitCh <;> cases b.all isDigitCh <;> rfl

theorem buildIdentKey_inj : ∀ a b, buildIdentKey a = buildIdentKey b → a = b := by
  intro a b
  unfold buildIdentKey
  cases ha : a.all isDigitCh <;> cases hb : b.all isDigitCh <;> intro h <;>
    simp_all
  exact eq_of_trimZeros_of_length h.1.2 h.2

theorem buildIdentCmp_strict : StrictCmp buildIdentCmp :=
  StrictCmp.congr (fun a b => (buildIdentCmp_eq_key a b).symm)
    ((sumCmp_strict (pairCmp_strict (pairCmp_strict natCmp_strict strCmp_strict)
        natCmp_strict) strCmp_strict).comap buildIdentKey buildIdentKey_inj)

theorem buildCmp_strict : StrictCmp buildCmp := by
  unfold buildCmp
  exact lexCmp_strict buildIdentCmp_strict

theorem versionCmp_eq_key (a b : Version) :
    Version.cmp a b
      = pairCmp natCmp (pairCmp natCmp (pairCmp natCmp (pairCmp preCmp buildCmp)))
          (vKey a) (vKey b) := rfl

theorem vKey_inj : ∀ a b, vKey a = vKey b → a = b := by
  intro a b h
  cases a; cases b
  simp_all [vKey]

theorem versionCmp_strict : StrictCmp Version.cmp :=
  StrictCmp.congr (fun a b => (versionCmp_eq_key a b).symm)
    ((pairCmp_strict natCmp_strict (pairCmp_strict natCmp_strict
        (pairCmp_strict natCmp_strict (pairCmp_strict preCmp_strict buildCmp_strict)))).comap
      vKey vKey_inj)

/-! ## The latest-tag fold -/

theorem pickLatest_parse_none {acc : Option Version} {t : String}
    (hp : Version.parse t = none) : pickLatest acc t = acc := by
  unfold pickLatest
  rw [hp]

theorem pickLatest_parse_some_none {t : String} {v : Version}
    (hp : Version.parse t = some v) : pickLatest none t = some v := by
  unfold pickLatest
  rw [hp]

theorem pickLatest_parse_some_some {t : String} {v l : Version}
    (hp : Version.parse t = some v) :
    pickLatest (some l) t = if Version.cmp v l = .gt then some v else some l := by
  unfold pickLatest
  rw [hp]

theorem pickLatest_eq_none {acc : Option Version} {t : String} :
    pickLatest acc t = none ↔ acc = none ∧ Version.parse t = none := by
  cases hp : Version.parse t with
  | none => simp [pickLatest_parse_none hp]
  | some v =>
    cases acc with
    | none => simp [pickLatest_parse_some_none hp]
    | some l =>
      rw [pickLatest_parse_some_some hp]
      split <;> simp

theorem foldl_pickLatest_none {tags : List String} {acc : Option Version} :
    tags.foldl pickLatest acc = none
      ↔ acc = none ∧ ∀ t ∈ tags, Version.parse t = none := by
  induction tags generalizing acc with
  | nil => simp
  | cons t ts ih =>
    rw [List.foldl_cons, ih, pickLatest_eq_none]
    constructor
    · rintro ⟨⟨h1, h2⟩, h3⟩
      exact ⟨h1, by simpa [h2] using h3⟩
    · rintro ⟨h1, h2⟩
      refine ⟨⟨h1, h2 t (by simp)⟩, fun u hu => h2 u (by simp [hu])⟩

theorem foldl_pickLatest_some {tags : List String} :
    ∀ (acc : Option Version) (v : Version), tags.foldl pickLatest acc = some v →
      (acc = some v ∨ ∃ t ∈ tags, Version.parse t = some v) ∧
      (∀ w, acc = some w → Version.cmp w v ≠ .gt) ∧
      (∀ t ∈ tags, ∀ w, Version.parse t = some w → Version.cmp w v ≠ .gt) := by
  induction tags with
  | nil =>
    intro acc v h
    simp only [List.foldl_nil] at h
    refine ⟨.inl h, fun w hw => ?_, by simp⟩
    rw [hw] at h
    cases h
    rw [versionCmp_strict.refl]
    simp
  | cons t ts ih =>
    intro acc v h
    rw [List.foldl_cons] at h
    obtain ⟨m1, m2, m3⟩ := ih (pickLatest acc t) v h
    refine ⟨?_, ?_, ?_⟩
    · rcases m1 with hm | ⟨t', ht', hp⟩
      · cases hp : Version.parse t with
        | none =>
          rw [pickLatest_parse_none hp] at hm
          exact .inl hm
        | some u =>
          cases acc with
          | none =>
            rw [pickLatest_parse_some_none hp] at hm
            have : u = v := by simpa using hm
            subst this
            exact .inr ⟨t, by simp, hp⟩
          | some l =>
            rw [pickLatest_parse_some_some hp] at hm
            split at hm
            · have : u = v := by simpa using hm
              subst this
              exact .inr ⟨t, by simp, hp⟩
            · exact .inl hm
      · exact .inr ⟨t', by simp [ht'], hp⟩
    · intro w hw
      subst hw
      cases hp : Version.parse t with
      | none =>
        rw [pickLatest_parse_none hp] at m2
        exact m2 w rfl
      | some u =>
        rw [pickLatest_parse_some_some hp] at m2
        by_cases hc : Version.cmp u w = .gt
        · rw [if_pos hc] at m2
          have hu := m2 u rfl
          have hwu : Version.cmp w u ≠ .gt := by
            rw [(versionCmp_strict.gt_iff u w).1 hc]
            simp
          exact versionCmp_strict.le_trans hwu hu
        · rw [if_neg hc] at m2
          exact m2 w rfl
    · intro t' ht' w hw
      rcases List.mem_cons.1 ht' with rfl | ht'
      · cases acc with
        | none =>
          rw [pickLatest_parse_some_none hw] at m2
          exact m2 w rfl
        | some l =>
          rw [pickLatest_parse_some_some hw] at m2
          by_cases hc : Version.cmp w l = .gt
          · rw [if_pos hc] at m2
            exact m2 w rfl
          · rw [if_neg hc] at m2
            exact versionCmp_strict.le_trans hc (m2 l rfl)
      · exact m3 t' ht' w hw

/-! ## Decimal rendering round-trip -/

theorem natCharsAux_zero (f : Nat) : natCharsAux f 0 = [] := by
  cases f <;> rfl

theorem natCharsAux_succ (f n : Nat) :
    natCharsAux (f + 1) (n + 1)
      = Nat.digitChar ((n + 1) % 10) :: natCharsAux f ((n + 1) / 10) := rfl

theorem natCharsAux_fuel :
    ∀ (n f₁ f₂ : Nat), n ≤ f₁ → n ≤ f₂ → natCharsAux f₁ n = natCharsAux f₂ n := by
  intro n
  induction n using Nat.strong_induction_on with
  | _ n ih =>
    intro f₁ f₂ h₁ h₂
    match n, f₁, f₂ with
    | 0, f₁, f₂ => rw [natCharsAux_zero, natCharsAux_zero]
    | m + 1, g₁ + 1, g₂ + 1 =>
      rw [natCharsAux_succ, natCharsAux_succ]
      have hlt : (m + 1) / 10 < m + 1 := Nat.div_lt_self (by omega) (by omega)
      rw [ih ((m + 1) / 10) hlt g₁ g₂ (by omega) (by omega)]

theorem isDigitCh_bounds {c : Char} (h : isDigitCh c = true) :
    48 ≤ c.toNat ∧ c.toNat ≤ 57 := by
  simpa [isDigitCh] using h

theorem digitVal_lt_ten {c : Char} (h : isDigitCh c = true) : digitVal c < 10 := by
  have := isDigitCh_bounds h
  unfold digitVal
  omega

theorem digitChar_digitVal {c : Char} (h : isDigitCh c = true) :
    Nat.digitChar (digitVal c) = c := by
  apply charToNat_inj
  have hb := isDigitCh_bounds h
  have hd : c.toNat = 48 + digitVal c := by
    unfold digitVal
    omega
  have h10 : digitVal c < 10 := digitVal_lt_ten h
  rw [hd]
  set k := digitVal c with hk
  interval_cases k <;> rfl

theorem digitsVal_append_singleton (ds : List Char) (c : Char) :
    digitsVal (ds ++ [c]) = 10 * digitsVal ds + digitVal c := by
  unfold digitsVal
  rw [List.foldl_append]
  simp [Nat.mul_comm]

theorem foldl_digits_ge (ds : List Char) :
    ∀ a : Nat, a ≤ ds.foldl (fun a c => a * 10 + digitVal c) a := by
  induction ds with
  | nil => intro a; simp
  | cons c ds ih =>
    intro a
    calc a ≤ a * 10 + digitVal c := by omega
      _ ≤ _ := by
        rw [List.foldl_cons]
        exact ih _

theorem digitsVal_pos {d : Char} {ds : List Char} (hd : isDigitCh d = true)
    (hne : d ≠ '0') : 0 < digitsVal (d :: ds) := by
  have hb := isDigitCh_bounds hd
  have h48 : d.toNat ≠ 48 := fun hc => hne (charToNat_inj d '0' (by rw [hc]; rfl))
  have h1 : 1 ≤ digitVal d := by
    unfold digitVal
    omega
  calc 0 < digitVal d := h1
    _ = 0 * 10 + digitVal d := by omega
    _ ≤ _ := by
      unfold digitsVal
      rw [List.foldl_cons]
      exact foldl_digits_ge ds _

theorem natChars_digitsVal :
    ∀ ds : List Char, ds ≠ [] → ds.all isDigitCh = true →
      (ds = ['0'] ∨ ds.head? ≠ some '0') → natChars (digitsVal ds) = ds := by
  intro ds
  induction ds using List.reverseRecOn with
  | nil => intro h; exact absurd rfl h
  | append_singleton ds c ih =>
    intro hne hall hlz
    have hc : isDigitCh c = true := by
      have := List.all_eq_true.1 hall c (by simp)
      simpa using this
    cases ds with
    | nil =>
      simp only [List.nil_append] at hlz ⊢
      have hv : digitsVal [c] = digitVal c := by
        simp [digitsVal, List.foldl]
      rw [hv]
      by_cases h0 : c = '0'
      · subst h0
        rfl
      · have hpos : 0 < digitVal c := by
          have hb := isDigitCh_bounds hc
          have h48 : c.toNat ≠ 48 := fun hx => h0 (charToNat_inj c '0' (by rw [hx]; rfl))
          unfold digitVal
          omega
        have h10 : digitVal c < 10 := digitVal_lt_ten hc
        unfold natChars
        rw [if_neg (by omega)]
        obtain ⟨m, hm⟩ : ∃ m, digitVal c = m + 1 := ⟨digitVal c - 1, by omega⟩
        rw [hm, natCharsAux_succ]
        rw [Nat.mod_eq_of_lt (by omega), Nat.div_eq_of_lt (by omega), natCharsAux_zero]
        rw [← hm, digitChar_digitVal hc]
        rfl
    | cons d ds' =>
      have hd : isDigitCh d = true := by
        have := List.all_eq_true.1 hall d (by simp)
        simpa using this
      have hd0 : d ≠ '0' := by
        rcases hlz with h | h
        · exact absurd (congrArg List.length h) (by simp)
        · intro hdeq
          exact h (by simp [hdeq])
      have hm : 0 < digitsVal (d :: ds') := digitsVal_pos hd hd0
      have hall' : (d :: ds').all isDigitCh = true := by
        rw [List.all_append] at hall
        exact ((Bool.and_eq_true _ _).mp hall).1
      have ihm := ih (by simp) hall' (.inr (by simp [hd0]))
      have hsplit : digitsVal ((d :: ds') ++ [c])
          = 10 * digitsVal (d :: ds') + digitVal c := digitsVal_append_singleton _ _
      set m := digitsVal (d :: ds') with hmdef
      have h10 : digitVal c < 10 := digitVal_lt_ten hc
      have hnpos : 0 < 10 * m + digitVal c := by omega
      unfold natChars
      rw [hsplit, if_neg (by omega)]
      obtain ⟨k, hk⟩ : ∃ k, 10 * m + digitVal c = k + 1 := ⟨10 * m + digitVal c - 1, by omega⟩
      rw [hk, natCharsAux_succ, ← hk]
      have hmod : (10 * m + digitVal c) % 10 = digitVal c := by omega
      have hdiv : (10 * m + digitVal c) / 10 = m := by omega
      rw [hmod, hdiv, digitChar_digitVal hc]
      have hfuel : natCharsAux k m = natCharsAux m m :=
        natCharsAux_fuel m k m (by omega) (by omega)
      rw [hfuel]
      have hfin : (natCharsAux m m).reverse = d :: ds' := by
        unfold natChars at ihm
        rw [if_neg (by omega)] at ihm
        exact ihm
      rw [List.reverse_cons, hfin]

/-! ## Characterizing the numeric-identifier parser -/

theorem numericAux_spec :
    ∀ (l ds₀ : List Char) (n : Nat) (rest : List Char),
      ds₀.all isDigitCh = true →
      digitsVal ds₀ < 2 ^ 64 →
      (ds₀ = [] ∨ ds₀ = ['0'] ∨ ds₀.head? ≠ some '0') →
      numericAux l ds₀.length (digitsVal ds₀) = some (n, rest) →
      ∃ ds₁, l = ds₁ ++ rest ∧ (ds₀ ++ ds₁).all isDigitCh = true ∧
        digitsVal (ds₀ ++ ds₁) = n ∧ n < 2 ^ 64 ∧ ds₀ ++ ds₁ ≠ [] ∧
        (ds₀ ++ ds₁ = ['0'] ∨ (ds₀ ++ ds₁).head? ≠ some '0') := by
  intro l
  induction l with
  | nil =>
    intro ds₀ n rest hall hlt hlz h
    unfold numericAux at h
    by_cases hlen : 0 < ds₀.length
    · rw [if_pos hlen] at h
      injection h with h1
      have hn : digitsVal ds₀ = n := congrArg Prod.fst h1
      have hrest : ([] : List Char) = rest := congrArg Prod.snd h1
      refine ⟨[], by simp [← hrest], by simpa using hall, by simpa using hn,
        hn ▸ hlt, ?_, ?_⟩
      · simpa using List.ne_nil_of_length_pos hlen
      · rcases hlz with rfl | hz | hz
        · simp at hlen
        · exact .inl (by simp [hz])
        · exact .inr (by simpa using hz)
    · rw [if_neg hlen] at h
      simp at h
  | cons c ls ih =>
    intro ds₀ n rest hall hlt hlz h
    unfold numericAux at h
    by_cases hdig : isDigitCh c = true
    · rw [if_pos hdig] at h
      by_cases hguard : (digitsVal ds₀ == 0 && decide (0 < ds₀.length)) = true
      · rw [if_pos hguard] at h
        simp at h
      · rw [if_neg hguard] at h
        simp only [] at h
        by_cases hov : digitsVal ds₀ * 10 + digitVal c < 2 ^ 64
        · rw [if_pos hov] at h
          have hval : digitsVal (ds₀ ++ [c]) = digitsVal ds₀ * 10 + digitVal c := by
            rw [digitsVal_append_singleton]
            omega
          have hlen : (ds₀ ++ [c]).length = ds₀.length + 1 := by simp
          have hall' : (ds₀ ++ [c]).all isDigitCh = true := by
            rw [List.all_append]
            simp [hall, hdig]
          have hlz' : ds₀ ++ [c] = [] ∨ ds₀ ++ [c] = ['0']
              ∨ (ds₀ ++ [c]).head? ≠ some '0' := by
            cases ds₀ with
            | nil =>
              by_cases h0 : c = '0'
              · exact .inr (.inl (by simp [h0]))
              · refine .inr (.inr ?_)
                simpa using h0
            | cons d ds =>
              rcases hlz with h₁ | h₁ | h₁
              · exact absurd h₁ (by simp)
              · exfalso
                apply hguard
                rw [h₁]
                rfl
              · refine .inr (.inr ?_)
                simpa using (by simpa using h₁ : d ≠ '0')
          have hrec : numericAux ls ((ds₀ ++ [c]).length) (digitsVal (ds₀ ++ [c]))
              = some (n, rest) := by
            rw [hval, hlen]
            exact h
          obtain ⟨ds₁, hsplit, hall₂, hval₂, hlt₂, hne₂, hlz₂⟩ :=
            ih (ds₀ ++ [c]) n rest hall' (hval ▸ hov) hlz' hrec
          refine ⟨c :: ds₁, by simp [hsplit], ?_, ?_, hlt₂, ?_, ?_⟩
          · simpa [List.append_assoc] using hall₂
          · simpa [List.append_assoc] using hval₂
          · simp
          · simpa [List.append_assoc] using hlz₂
        · rw [if_neg hov] at h
          simp at h
    · rw [if_neg hdig] at h
      by_cases hlen : 0 < ds₀.length
      · rw [if_pos hlen] at h
        injection h with h1
        have hn : digitsVal ds₀ = n := congrArg Prod.fst h1
        have hrest : c :: ls = rest := congrArg Prod.snd h1
        refine ⟨[], by simp [← hrest], by simpa using hall, by simpa using hn,
          hn ▸ hlt, ?_, ?_⟩
        · simpa using List.ne_nil_of_length_pos hlen
        · rcases hlz with rfl | hz | hz
          · simp at hlen
          · exact .inl (by simp [hz])
          · exact .inr (by simpa using hz)
      · rw [if_neg hlen] at h
        simp at h

theorem numericIdent_spec {l : List Char} {n : Nat} {rest : List Char}
    (h : numericIdent l = some (n, rest)) :
    ∃ ds, l = ds ++ rest ∧ ds.all isDigitCh = true ∧ digitsVal ds = n ∧
      n < 2 ^ 64 ∧ ds ≠ [] ∧ (ds = ['0'] ∨ ds.head? ≠ some '0') := by
  have h0 : digitsVal ([] : List Char) = 0 := rfl
  obtain ⟨ds, h1, h2, h3, h4, h5, h6⟩ :=
    numericAux_spec l [] n rest (by simp) (by rw [h0]; omega) (.inl rfl)
      (by simpa [h0] using h)
  exact ⟨ds, h1, by simpa using h2, by simpa using h3, h4, by simpa using h5,
    by simpa using h6⟩

theorem numericIdent_render {l : List Char} {n : Nat} {rest : List Char}
    (h : numericIdent l = some (n, rest)) : l = natChars n ++ rest := by
  obtain ⟨ds, h1, h2, h3, _, h5, h6⟩ := numericIdent_spec h
  rw [h1, ← h3, natChars_digitsVal ds h5 h2 h6]

/-! ## Characterizing the identifier parser and the full parser -/

theorem checkSeg_eq {p : Bool} {cur seg : List Char}
    (h : checkSeg p cur = some seg) : seg = cur := by
  unfold checkSeg at h
  split_ifs at h
  injection h with h1
  exact h1.symm

theorem joinDots_cons_cons (s t : List Char) (r : List (List Char)) :
    joinDots (s :: t :: r) = s ++ '.' :: joinDots (t :: r) := rfl

theorem parseIdentsGo_spec :
    ∀ (l cur : List Char) (p : Bool) (segs : List (List Char)) (rest : List Char),
      parseIdentsGo p cur l = some (segs, rest) →
      cur ++ l = joinDots segs ++ rest ∧ segs ≠ [] := by
  intro l
  induction l with
  | nil =>
    intro cur p segs rest h
    unfold parseIdentsGo at h
    cases hcs : checkSeg p cur with
    | none =>
      rw [hcs] at h
      exact absurd h (by simp)
    | some seg =>
      rw [hcs] at h
      injection h with h1
      have hsegs : [seg] = segs := congrArg Prod.fst h1
      have hrest : ([] : List Char) = rest := congrArg Prod.snd h1
      have hseg := checkSeg_eq hcs
      subst hseg
      rw [← hsegs, ← hrest]
      exact ⟨by simp [joinDots], by simp⟩
  | cons c ls ih =>
    intro cur p segs rest h
    unfold parseIdentsGo at h
    by_cases hic : identChar c = true
    · rw [if_pos hic] at h
      obtain ⟨h1, h2⟩ := ih (cur ++ [c]) p segs rest h
      exact ⟨by simpa [List.append_assoc] using h1, h2⟩
    · rw [if_neg hic] at h
      by_cases hdot : c = '.'
      · rw [if_pos hdot] at h
        cases hcs : checkSeg p cur with
        | none =>
          rw [hcs] at h
          exact absurd h (by simp)
        | some seg =>
          rw [hcs] at h
          cases hrec : parseIdentsGo p [] ls with
          | none =>
            rw [hrec] at h
            exact absurd h (by simp)
          | some pr =>
            obtain ⟨segs', rem⟩ := pr
            rw [hrec] at h
            injection h with h1
            have hsegs : seg :: segs' = segs := congrArg Prod.fst h1
            have hrest : rem = rest := congrArg Prod.snd h1
            obtain ⟨ih1, ih2⟩ := ih [] p segs' rem hrec
            simp only [List.nil_append] at ih1
            have hseg := checkSeg_eq hcs
            subst hseg
            subst hdot
            rw [← hsegs, ← hrest]
            refine ⟨?_, by simp⟩
            cases segs' with
            | nil => exact absurd rfl ih2
            | cons t r =>
              rw [joinDots_cons_cons, ih1]
              simp
      · rw [if_neg hdot] at h
        cases hcs : checkSeg p cur with
        | none =>
          rw [hcs] at h
          exact absurd h (by simp)
        | some seg =>
          rw [hcs] at h
          injection h with h1
          have hsegs : [seg] = segs := congrArg Prod.fst h1
          have hrest : c :: ls = rest := congrArg Prod.snd h1
          have hseg := checkSeg_eq hcs
          subst hseg
          rw [← hsegs, ← hrest]
          exact ⟨by simp [joinDots], by simp⟩

theorem parseIdents_spec {p : Bool} {l : List Char} {segs : List (List Char)}
    {rest : List Char} (h : parseIdents p l = some (segs, rest)) :
    l = joinDots segs ++ rest ∧ segs ≠ [] := by
  have := parseIdentsGo_spec l [] p segs rest h
  simpa using this

theorem expectDot_eq_some {l r : List Char} (h : expectDot l = some r) :
    l = '.' :: r := by
  unfold expectDot at h
  split at h
  · injection h with h1
    rw [h1]
  · exact absurd h (by simp)

/-! ## The parse-render round trip -/

theorem render_eq_of_parts {s : String} {v : Version} {r1 r1' r2 r2' r3 r4 r5 : List Char}
    (h1 : s.data = natChars v.major ++ r1)
    (h2 : r1 = '.' :: r1')
    (h3 : r1' = natChars v.minor ++ r2)
    (h4 : r2 = '.' :: r2')
    (h5 : r2' = natChars v.patch ++ r3)
    (h6 : r3 = (if v.pre.isEmpty then [] else '-' :: joinDots v.pre) ++ r4)
    (h7 : r4 = (if v.build.isEmpty then [] else '+' :: joinDots v.build) ++ r5)
    (h8 : r5 = []) : v.render = s := by
  have hs : s = ⟨s.data⟩ := rfl
  rw [hs]
  unfold Version.render
  congr 1
  rw [h1, h2, h3, h4, h5, h6, h7, h8]
  simp [List.append_assoc]

theorem nonempty_if_dash {pre : List (List Char)} (h : pre ≠ []) (x : List Char) :
    (if pre.isEmpty then [] else x) = x := by
  cases pre with
  | nil => exact absurd rfl h
  | cons p ps => rfl

theorem parse_render {s : String} {v : Version} (h : Version.parse s = some v) :
    v.render = s := by
  rw [Version.parse] at h
  simp only [bind, Option.bind_eq_some] at h
  obtain ⟨⟨major, r1⟩, h1, h⟩ := h
  obtain ⟨r1', h2, h⟩ := h
  obtain ⟨⟨minor, r2⟩, h3, h⟩ := h
  obtain ⟨r2', h4, h⟩ := h
  obtain ⟨⟨patch, r3⟩, h5, h⟩ := h
  dsimp only at h h2 h4
  have hd1 := numericIdent_render h1
  have hd2 := expectDot_eq_some h2
  have hd3 := numericIdent_render h3
  have hd4 := expectDot_eq_some h4
  have hd5 := numericIdent_render h5
  clear h1 h2 h3 h4 h5
  split at h
  · next r =>
    rw [Option.bind_eq_some] at h
    obtain ⟨⟨pre, r4⟩, h6, h⟩ := h
    dsimp only at h
    obtain ⟨hp1, hp2⟩ := parseIdents_spec h6
    split at h
    · next rb =>
      rw [Option.bind_eq_some] at h
      obtain ⟨⟨build, r5⟩, h7, h⟩ := h
      dsimp only at h
      obtain ⟨hb1, hb2⟩ := parseIdents_spec h7
      split at h
      · next hemp =>
        injection h with hv
        subst hv
        have hA : '-' :: r = (if pre.isEmpty then [] else '-' :: joinDots pre) ++ ('+' :: rb) := by
          rw [nonempty_if_dash hp2, hp1]
          rfl
        have hB : '+' :: rb = (if build.isEmpty then [] else '+' :: joinDots build) ++ r5 := by
          rw [nonempty_if_dash hb2, hb1]
          rfl
        exact render_eq_of_parts hd1 hd2 hd3 hd4 hd5 hA hB (List.isEmpty_iff.mp hemp)
      · exact absurd h (by simp)
    · next x hx =>
      rw [Option.some_bind] at h
      dsimp only at h
      split at h
      · next hemp =>
        injection h with hv
        subst hv
        have hA : '-' :: r = (if pre.isEmpty then [] else '-' :: joinDots pre) ++ r4 := by
          rw [nonempty_if_dash hp2, hp1]
          rfl
        have hB : r4 = (if ([] : List (List Char)).isEmpty then [] else '+' :: joinDots []) ++ r4 := rfl
        exact render_eq_of_parts hd1 hd2 hd3 hd4 hd5 hA hB (List.isEmpty_iff.mp hemp)
      · exact absurd h (by simp)
  · next x hx =>
    rw [Option.some_bind] at h
    dsimp only at h
    split at h
    · next rb =>
      rw [Option.bind_eq_some] at h
      obtain ⟨⟨build, r5⟩, h7, h⟩ := h
      dsimp only at h
      obtain ⟨hb1, hb2⟩ := parseIdents_spec h7
      split at h
      · next hemp =>
        injection h with hv
        subst hv
        have hA : '+' :: rb = (if ([] : List (List Char)).isEmpty then [] else '-' :: joinDots []) ++ ('+' :: rb) := rfl
        have hB : '+' :: rb = (if build.isEmpty then [] else '+' :: joinDots build) ++ r5 := by
          rw [nonempty_if_dash hb2, hb1]
          rfl
        exact render_eq_of_parts hd1 hd2 hd3 hd4 hd5 hA hB (List.isEmpty_iff.mp hemp)
      · exact absurd h (by simp)
    · next x2 hx2 =>
      rw [Option.some_bind] at h
      dsimp only at h
      split at h
      · next hemp =>
        injection h with hv
        subst hv
        have hA : r3 = (if ([] : List (List Char)).isEmpty then [] else '-' :: joinDots []) ++ r3 := rfl
        have hB : r3 = (if ([] : List (List Char)).isEmpty then [] else '+' :: joinDots []) ++ r3 := rfl
        exact render_eq_of_parts hd1 hd2 hd3 hd4 hd5 hA hB (List.isEmpty_iff.mp hemp)
      · exact absurd h (by simp)

/-! ## Claim C1 -/

/-- C1: for every sequence of tag strings, `get_latest_tag` returns a tag
from the sequence whose parsed semantic version is greater than or equal
to every other parseable tag's version (unparseable tags are silently
skipped), and it signals the no-tags-found error if and only if no tag in
the sequence parses as a semantic version; in particular, on
`["1.0.0", "2.0.0-rc1", "bogus", "2.0.0"]` it returns `"2.0.0"`. -/
theorem get_latest_tag_spec (tags : List String) :
    (getLatestTag tags = .error .noTagsFound ↔ ∀ t ∈ tags, Version.parse t = none) ∧
    (∀ s, getLatestTag tags = .ok s →
      s ∈ tags ∧ ∃ v, Version.parse s = some v ∧
        ∀ t ∈ tags, ∀ w, Version.parse t = some w → Version.cmp w v ≠ .gt) ∧
    getLatestTag ["1.0.0", "2.0.0-rc1", "bogus", "2.0.0"] = .ok "2.0.0" := by
  refine ⟨?_, ?_, by rfl⟩
  · unfold getLatestTag
    cases hf : tags.foldl pickLatest none with
    | none =>
      simp only []
      constructor
      · intro _
        exact (foldl_pickLatest_none.mp hf).2
      · intro _
        trivial
    | some v =>
      simp only []
      constructor
      · intro hcontra
        exact absurd hcontra (by simp)
      · intro hall
        exact absurd hf (by rw [foldl_pickLatest_none.2 ⟨rfl, hall⟩]; simp)
  · intro s hs
    unfold getLatestTag at hs
    cases hf : tags.foldl pickLatest none with
    | none =>
      rw [hf] at hs
      exact absurd hs (by simp)
    | some v =>
      rw [hf] at hs
      injection hs with hs
      obtain ⟨hmem, -, hmax⟩ := foldl_pickLatest_some none v hf
      rcases hmem with hcontra | ⟨t, ht, hp⟩
      · exact absurd hcontra (by simp)
      · have hrt : v.render = t := parse_render hp
        subst hs
        rw [hrt]
        exact ⟨ht, v, hp, hmax⟩

/-- Witness for C1 at the concrete tag list. -/
theorem get_latest_tag_spec_witness :
    "2.0.0" ∈ ["1.0.0", "2.0.0-rc1", "bogus", "2.0.0"] ∧
    ∃ v, Version.parse "2.0.0" = some v ∧
      ∀ t ∈ ["1.0.0", "2.0.0-rc1", "bogus", "2.0.0"], ∀ w,
        Version.parse t = some w → Version.cmp w v ≠ .gt :=
  (get_latest_tag_spec ["1.0.0", "2.0.0-rc1", "bogus", "2.0.0"]).2.1 "2.0.0" rfl

/-! ## Association-list lemmas -/

theorem assoc_cons_eq {α : Type} (k : String) (v₀ : α) (rest : List (String × α)) :
    assoc ((k, v₀) :: rest) k = some v₀ := by
  simp [assoc]

theorem assoc_cons_ne {α : Type} {k₀ k : String} (h : k₀ ≠ k) (v₀ : α)
    (rest : List (String × α)) : assoc ((k₀, v₀) :: rest) k = assoc rest k := by
  simp only [assoc]
  rw [if_neg h]

theorem assocSet_cons_eq {α : Type} (k : String) (v v₀ : α) (rest : List (String × α)) :
    assocSet ((k, v₀) :: rest) k v = (k, v) :: rest := by
  simp [assocSet]

theorem assocSet_cons_ne {α : Type} {k₀ k : String} (h : k₀ ≠ k) (v v₀ : α)
    (rest : List (String × α)) :
    assocSet ((k₀, v₀) :: rest) k v = (k₀, v₀) :: assocSet rest k v := by
  simp only [assocSet]
  rw [if_neg h]

theorem assocRemove_cons_eq {α : Type} (k : String) (v₀ : α) (rest : List (String × α)) :
    assocRemove ((k, v₀) :: rest) k = (some v₀, rest) := by
  simp [assocRemove]

theorem assocRemove_cons_ne {α : Type} {k₀ k : String} (h : k₀ ≠ k) (v₀ : α)
    (rest : List (String × α)) :
    assocRemove ((k₀, v₀) :: rest) k
      = ((assocRemove rest k).1, (k₀, v₀) :: (assocRemove rest k).2) := by
  simp only [assocRemove]
  rw [if_neg h]

theorem assoc_assocSet_self {α : Type} (l : List (String × α)) (k : String) (v : α) :
    assoc (assocSet l k v) k = some v := by
  induction l with
  | nil => simp [assoc, assocSet]
  | cons p rest ih =>
    obtain ⟨k₀, v₀⟩ := p
    by_cases hk : k₀ = k
    · subst hk
      rw [assocSet_cons_eq, assoc_cons_eq]
    · rw [assocSet_cons_ne hk, assoc_cons_ne hk, ih]

theorem assoc_assocSet_ne {α : Type} (l : List (String × α)) {k k' : String} (v : α)
    (h : k' ≠ k) : assoc (assocSet l k v) k' = assoc l k' := by
  induction l with
  | nil => simp [assoc, assocSet, Ne.symm h]
  | cons p rest ih =>
    obtain ⟨k₀, v₀⟩ := p
    by_cases hk : k₀ = k
    · subst hk
      rw [assocSet_cons_eq, assoc_cons_ne (Ne.symm h), assoc_cons_ne (Ne.symm h)]
    · rw [assocSet_cons_ne hk]
      by_cases hk' : k₀ = k'
      · subst hk'
        rw [assoc_cons_eq, assoc_cons_eq]
      · rw [assoc_cons_ne hk', assoc_cons_ne hk', ih]

theorem assocSet_same {α : Type} {l : List (String × α)} {k : String} {v : α}
    (h : assoc l k = some v) : assocSet l k v = l := by
  induction l with
  | nil => simp [assoc] at h
  | cons p rest ih =>
    obtain ⟨k₀, v₀⟩ := p
    by_cases hk : k₀ = k
    · subst hk
      rw [assoc_cons_eq] at h
      injection h with h
      rw [assocSet_cons_eq, h]
    · rw [assoc_cons_ne hk] at h
      rw [assocSet_cons_ne hk, ih h]

theorem assoc_eq_none_of_not_mem {α : Type} {l : List (String × α)} {k : String}
    (h : k ∉ l.map Prod.fst) : assoc l k = none := by
  induction l with
  | nil => rfl
  | cons p rest ih =>
    obtain ⟨k₀, v₀⟩ := p
    simp only [List.map_cons, List.mem_cons] at h
    push_neg at h
    rw [assoc_cons_ne (Ne.symm h.1), ih h.2]

theorem assocRemove_none {α : Type} {l : List (String × α)} {k : String}
    (h : assoc l k = none) : assocRemove l k = (none, l) := by
  induction l with
  | nil => rfl
  | cons p rest ih =>
    obtain ⟨k₀, v₀⟩ := p
    by_cases hk : k₀ = k
    · subst hk
      rw [assoc_cons_eq] at h
      exact absurd h (by simp)
    · rw [assoc_cons_ne hk] at h
      rw [assocRemove_cons_ne hk, ih h]

theorem assocRemove_snd_ne {α : Type} (l : List (String × α)) {k k' : String}
    (h : k' ≠ k) : assoc ((assocRemove l k).2) k' = assoc l k' := by
  induction l with
  | nil => rfl
  | cons p rest ih =>
    obtain ⟨k₀, v₀⟩ := p
    by_cases hk : k₀ = k
    · subst hk
      rw [assocRemove_cons_eq]
      exact (assoc_cons_ne (Ne.symm h) v₀ rest).symm
    · rw [assocRemove_cons_ne hk]
      by_cases hk' : k₀ = k'
      · subst hk'
        rw [assoc_cons_eq, assoc_cons_eq]
      · rw [assoc_cons_ne hk', assoc_cons_ne hk', ih]

theorem assocRemove_self_of_nodup {α : Type} {l : List (String × α)} {k : String}
    (h : (l.map Prod.fst).Nodup) : assoc ((assocRemove l k).2) k = none := by
  induction l with
  | nil => rfl
  | cons p rest ih =>
    obtain ⟨k₀, v₀⟩ := p
    simp only [List.map_cons, List.nodup_cons] at h
    by_cases hk : k₀ = k
    · subst hk
      rw [assocRemove_cons_eq]
      exact assoc_eq_none_of_not_mem h.1
    · rw [assocRemove_cons_ne hk, assoc_cons_ne hk, ih h.2]

theorem assocRemove_assocSet {α : Type} (l : List (String × α)) (k : String) (v : α) :
    assocRemove (assocSet l k v) k = (some v, (assocRemove l k).2) := by
  induction l with
  | nil => simp [assocSet, assocRemove]
  | cons p rest ih =>
    obtain ⟨k₀, v₀⟩ := p
    by_cases hk : k₀ = k
    · subst hk
      rw [assocSet_cons_eq, assocRemove_cons_eq, assocRemove_cons_eq]
    · rw [assocSet_cons_ne hk, assocRemove_cons_ne hk, assocRemove_cons_ne hk, ih]

theorem mem_keys_assocSet {α : Type} {l : List (String × α)} {k x : String} {v : α} :
    x ∈ (assocSet l k v).map Prod.fst ↔ x ∈ l.map Prod.fst ∨ x = k := by
  induction l with
  | nil => simp [assocSet]
  | cons p rest ih =>
    obtain ⟨k₀, v₀⟩ := p
    by_cases hk : k₀ = k
    · subst hk
      rw [assocSet_cons_eq]
      simp
      tauto
    · rw [assocSet_cons_ne hk]
      simp only [List.map_cons, List.mem_cons, ih]
      tauto

theorem assocSet_nodup {α : Type} {l : List (String × α)} {k : String} {v : α}
    (h : (l.map Prod.fst).Nodup) : ((assocSet l k v).map Prod.fst).Nodup := by
  induction l with
  | nil => simp [assocSet]
  | cons p rest ih =>
    obtain ⟨k₀, v₀⟩ := p
    simp only [List.map_cons, List.nodup_cons] at h
    by_cases hk : k₀ = k
    · subst hk
      rw [assocSet_cons_eq]
      simp only [List.map_cons, List.nodup_cons]
      exact ⟨h.1, h.2⟩
    · rw [assocSet_cons_ne hk]
      simp only [List.map_cons, List.nodup_cons]
      refine ⟨fun hmem => ?_, ih h.2⟩
      rcases mem_keys_assocSet.1 hmem with hm | hm
      · exact h.1 hm
      · exact hk hm

theorem assocRemove_snd_sublist {α : Type} (l : List (String × α)) (k : String) :
    ((assocRemove l k).2).Sublist l := by
  induction l with
  | nil => simp [assocRemove]
  | cons p rest ih =>
    obtain ⟨k₀, v₀⟩ := p
    by_cases hk : k₀ = k
    · subst hk
      rw [assocRemove_cons_eq]
      exact List.sublist_cons_self _ _
    · rw [assocRemove_cons_ne hk]
      exact ih.cons₂ _

theorem assocRemove_snd_nodup {α : Type} {l : List (String × α)} {k : String}
    (h : (l.map Prod.fst).Nodup) : (((assocRemove l k).2).map Prod.fst).Nodup :=
  ((assocRemove_snd_sublist l k).map Prod.fst).nodup h

/-! ## Claim C5 -/

/-- C5: `update_mod`'s upsert behaviour.  When the entry for `name` is a
structured sub-table, its `version` field is updated in place, its
`alias` field is set when an alias is given and removed when not (the
sub-table's keys being distinct, as in any TOML table), and every other
field is untouched; when the entry is a bare scalar or absent, the entry
is replaced/created wholesale as `new_dependency` builds it: a bare
version string without an alias, a structured value with `version` and
`alias` fields otherwise.  In particular, upserting over
`foo = "1.0.0"` with version `"1.2.0"` and no alias yields the bare
string `"1.2.0"`, and upserting that with alias `"f"` yields
`{version = "1.2.0", alias = "f"}`. -/
theorem update_mod_upsert_spec :
    (∀ (doc : Doc) (deps : List (String × TItem)) (name version : String)
        (aliasArg : Option String),
      assoc doc "dependencies" = some (.table deps) →
      ∃ deps', updateMod doc name version aliasArg
          = .ok (assocSet doc "dependencies" (.table deps')) ∧
        (∀ n, n ≠ name → assoc deps' n = assoc deps n) ∧
        (match assoc deps name with
         | some (.table t) =>
            ∃ t', assoc deps' name = some (.table t') ∧
              assoc t' "version" = some (.str version) ∧
              (∀ a, aliasArg = some a → assoc t' "alias" = some (.str a)) ∧
              (aliasArg = none → (t.map Prod.fst).Nodup → assoc t' "alias" = none) ∧
              (∀ k, k ≠ "version" → k ≠ "alias" → assoc t' k = assoc t k)
         | some (.str _) => assoc deps' name = some (newDependency version aliasArg)
         | none => assoc deps' name = some (newDependency version aliasArg))) ∧
    updateMod [("dependencies", .table [("foo", .str "1.0.0")])] "foo" "1.2.0" none
      = .ok [("dependencies", .table [("foo", .str "1.2.0")])] ∧
    updateMod [("dependencies", .table [("foo", .str "1.2.0")])] "foo" "1.2.0" (some "f")
      = .ok [("dependencies",
          .table [("foo", .table [("version", .str "1.2.0"), ("alias", .str "f")])])] := by
  refine ⟨?_, by rfl, by rfl⟩
  intro doc deps name version aliasArg hdeps
  have hstep : updateMod doc name version aliasArg
      = .ok (assocSet doc "dependencies" (.table
          (match assoc deps name with
           | some item => assocSet deps name (updateExistingDependency item version aliasArg)
           | none => assocSet deps name (newDependency version aliasArg)))) := by
    unfold updateMod
    rw [hdeps]
  cases hentry : assoc deps name with
  | none =>
    rw [hentry] at hstep
    refine ⟨_, hstep, fun n hn => assoc_assocSet_ne deps _ hn, ?_⟩
    exact assoc_assocSet_self deps name (newDependency version aliasArg)
  | some item =>
    rw [hentry] at hstep
    cases item with
    | str s =>
      refine ⟨_, hstep, fun n hn => assoc_assocSet_ne deps _ hn, ?_⟩
      exact assoc_assocSet_self deps name (newDependency version aliasArg)
    | table t =>
      refine ⟨_, hstep, fun n hn => assoc_assocSet_ne deps _ hn, ?_⟩
      cases aliasArg with
      | some a =>
        refine ⟨assocSet (assocSet t "version" (.str version)) "alias" (.str a),
          assoc_assocSet_self deps name _, ?_, ?_, ?_, ?_⟩
        · rw [assoc_assocSet_ne _ _ (by decide), assoc_assocSet_self]
        · intro a' ha'
          injection ha' with ha'
          rw [← ha']
          exact assoc_assocSet_self _ _ _
        · intro hcontra _
          exact absurd hcontra (by simp)
        · intro k hk1 hk2
          rw [assoc_assocSet_ne _ _ hk2, assoc_assocSet_ne _ _ hk1]
      | none =>
        refine ⟨(assocRemove (assocSet t "version" (.str version)) "alias").2,
          assoc_assocSet_self deps name _, ?_, ?_, ?_, ?_⟩
        · rw [assocRemove_snd_ne _ (by decide), assoc_assocSet_self]
        · intro a' ha'
          exact absurd ha' (by simp)
        · intro _ hnodup
          exact assocRemove_self_of_nodup (assocSet_nodup hnodup)
        · intro k hk1 hk2
          rw [assocRemove_snd_ne _ hk2, assoc_assocSet_ne _ _ hk1]

/-- Witness for C5 at a concrete document with a structured entry. -/
theorem update_mod_upsert_spec_witness :
    ∃ deps', updateMod [("dependencies",
        .table [("bar", .table [("version", .str "0.1.0"), ("path", .str "p")])])]
        "bar" "0.2.0" none
        = .ok (assocSet [("dependencies",
            .table [("bar", .table [("version", .str "0.1.0"), ("path", .str "p")])])]
            "dependencies" (.table deps')) ∧
      (∀ n, n ≠ "bar" → assoc deps' n
          = assoc [("bar", TItem.table [("version", TItem.str "0.1.0"),
              ("path", TItem.str "p")])] n) ∧
      (match assoc [("bar", TItem.table [("version", TItem.str "0.1.0"),
          ("path", TItem.str "p")])] "bar" with
       | some (.table t) =>
          ∃ t', assoc deps' "bar" = some (.table t') ∧
            assoc t' "version" = some (.str "0.2.0") ∧
            (∀ a, (none : Option String) = some a → assoc t' "alias" = some (.str a)) ∧
            ((none : Option String) = none → (t.map Prod.fst).Nodup →
              assoc t' "alias" = none) ∧
            (∀ k, k ≠ "version" → k ≠ "alias" → assoc t' k = assoc t k)
       | some (.str _) => assoc deps' "bar" = some (newDependency "0.2.0" none)
       | none => assoc deps' "bar" = some (newDependency "0.2.0" none)) :=
  update_mod_upsert_spec.1
    [("dependencies", .table [("bar", .table [("version", .str "0.1.0"), ("path", .str "p")])])]
    [("bar", .table [("version", .str "0.1.0"), ("path", .str "p")])]
    "bar" "0.2.0" none rfl

/-! ## Claims C6 and C7 -/

/-- C6: removing a dependency name absent from the manifest's
dependencies table signals the dependency-not-found error naming the
dependency, and the manifest file on disk is left unchanged (the returned
world is the input world: no write is performed). -/
theorem remove_dep_not_found (w : World) (name : String) (doc : Doc)
    (hm : w.manifest = .parsed doc)
    (hok : ∀ s, assoc doc "dependencies" ≠ some (.str s))
    (habs : ∀ deps, assoc doc "dependencies" = some (.table deps) →
      assoc deps name = none) :
    removeDepW name w = (.error (.dependencyNotFound name), w) := by
  have hr : removeDepDoc doc name = .error (.dependencyNotFound name) := by
    unfold removeDepDoc
    cases hd : assoc doc "dependencies" with
    | none => rfl
    | some item =>
      cases item with
      | str s => exact absurd hd (hok s)
      | table deps =>
        dsimp only
        rw [assocRemove_none (habs deps hd)]
  unfold removeDepW getConfig
  rw [hm]
  dsimp only
  rw [hr]

/-- Witness for C6: removing an absent name from an empty dependencies
table errors and leaves the world unchanged. -/
theorem remove_dep_not_found_witness :
    removeDepW "x" ⟨[], [], .parsed [("dependencies", .table [])], 0, none⟩
      = (.error (.dependencyNotFound "x"),
         ⟨[], [], .parsed [("dependencies", .table [])], 0, none⟩) :=
  remove_dep_not_found _ "x" [("dependencies", .table [])] rfl
    (fun s h => by injection h with h; cases h)
    (fun deps h => by
      injection h with h
      injection h with h
      rw [← h]
      rfl)

theorem removeDepW_err {name : String} {w w₁ : World} {e : BendError}
    (h : removeDepW name w = (.error e, w₁)) : w₁ = w := by
  unfold removeDepW at h
  cases hg : getConfig w.manifest with
  | error e' =>
    rw [hg] at h
    dsimp only at h
    exact (congrArg Prod.snd h).symm
  | ok doc =>
    rw [hg] at h
    dsimp only at h
    cases hr : removeDepDoc doc name with
    | ok doc' =>
      rw [hr] at h
      dsimp only at h
      exact absurd (congrArg Prod.fst h) (by simp)
    | error e' =>
      rw [hr] at h
      dsimp only at h
      exact (congrArg Prod.snd h).symm

theorem removeDepW_mirrors (name : String) (w : World) :
    (removeDepW name w).2.mirrors = w.mirrors := by
  unfold removeDepW
  cases hg : getConfig w.manifest with
  | error e => rfl
  | ok doc =>
    dsimp only
    cases hr : removeDepDoc doc name with
    | ok doc' => rfl
    | error e => rfl

/-- C7: the top-level `remove` performs the manifest removal first and
deletes the mirror directory only if it succeeded: a failing manifest
removal is returned as-is with the world (in particular every mirror)
untouched, and when the manifest removal succeeds but the mirror
directory does not exist, the operation still succeeds as a no-op
deletion (mirrors unchanged). -/
theorem remove_order_spec :
    (∀ (w : World) (name : String) (e : BendError) (w₁ : World),
      removeDepW name w = (.error e, w₁) →
      remove name w = (.error e, w) ∧ w₁ = w) ∧
    (∀ (w : World) (name : String) (w₁ : World) (rn : String),
      removeDepW name w = (.ok (), w₁) →
      repository_name name = some rn →
      assoc w₁.mirrors (".bend/" ++ rn) = none →
      remove name w = (.ok (), w₁) ∧ w₁.mirrors = w.mirrors) := by
  constructor
  · intro w name e w₁ h
    have hw := removeDepW_err h
    subst hw
    constructor
    · unfold remove
      rw [h]
    · rfl
  · intro w name w₁ rn h hrn habs
    constructor
    · unfold remove
      rw [h]
      dsimp only
      unfold removeRepoW
      rw [hrn]
      dsimp only
      rw [habs]
    · have := removeDepW_mirrors name w
      rw [h] at this
      exact this

/-- Witness for C7: a failing removal touches nothing, and a successful
removal with no mirror present is a no-op deletion. -/
theorem remove_order_spec_witness :
    (remove "x" ⟨[], [], .parsed [("dependencies", .table [])], 0, none⟩
        = (.error (.dependencyNotFound "x"),
           ⟨[], [], .parsed [("dependencies", .table [])], 0, none⟩)) ∧
    (remove "u/r" ⟨[], [], .parsed [("dependencies", .table [("u/r", .str "1.0.0")])], 0, none⟩
        = (.ok (), ⟨[], [], .parsed [("dependencies", .table [])], 0, none⟩)) := by
  constructor
  · exact (remove_order_spec.1 _ "x" _ _ remove_dep_not_found_witness).1
  · exact (remove_order_spec.2
      ⟨[], [], .parsed [("dependencies", .table [("u/r", .str "1.0.0")])], 0, none⟩
      "u/r" ⟨[], [], .parsed [("dependencies", .table [])], 0, none⟩ "r"
      rfl rfl rfl).1

/-! ## Claim C9 -/

theorem assocSet_assocSet {α : Type} (l : List (String × α)) (k : String) (v v' : α) :
    assocSet (assocSet l k v) k v' = assocSet l k v' := by
  induction l with
  | nil => simp [assocSet]
  | cons p rest ih =>
    obtain ⟨k₀, v₀⟩ := p
    by_cases hk : k₀ = k
    · subst hk
      rw [assocSet_cons_eq, assocSet_cons_eq, assocSet_cons_eq]
    · rw [assocSet_cons_ne hk, assocSet_cons_ne hk, assocSet_cons_ne hk, ih]

/-- C9 counterexample: on a manifest with no `dependencies` table,
`upsert` followed by `remove` of the same name does not return the
original document — `get_deps`'s `or_insert` creates an empty
`dependencies` table that persists, so the result is not byte-identical
to (nor equivalent modulo the removed key with) the pre-upsert state. -/
theorem upsert_remove_counterexample :
    (updateMod [("module", TItem.str "m")] "foo" "1.0.0" none >>= fun d =>
        removeDepDoc d "foo")
      = .ok [("module", TItem.str "m"), ("dependencies", TItem.table [])] ∧
    ([("module", TItem.str "m"), ("dependencies", TItem.table [])] : Doc)
      ≠ [("module", TItem.str "m")] := by
  constructor
  · rfl
  · intro h
    exact absurd (congrArg List.length h) (by simp)

/-- C9 amended: provided the manifest already contains a `dependencies`
table, `upsert` followed by `remove` for the same name returns the
document to its pre-upsert state with only the entry for that name
deleted; in particular when the name was absent before the upsert the
result is exactly the original document, all other entries untouched.
(When the `dependencies` table is absent, an empty table is created and
persists — see the counterexample.) -/
theorem upsert_remove_roundtrip (doc : Doc) (deps : List (String × TItem))
    (name version : String) (aliasArg : Option String)
    (hdeps : assoc doc "dependencies" = some (.table deps)) :
    (updateMod doc name version aliasArg >>= fun d => removeDepDoc d name)
      = .ok (assocSet doc "dependencies" (.table (assocRemove deps name).2)) ∧
    (assoc deps name = none →
      (updateMod doc name version aliasArg >>= fun d => removeDepDoc d name)
        = .ok doc) := by
  have hstep : ∃ X, updateMod doc name version aliasArg
      = .ok (assocSet doc "dependencies" (.table (assocSet deps name X))) := by
    unfold updateMod
    rw [hdeps]
    dsimp only
    cases hentry : assoc deps name with
    | none => exact ⟨newDependency version aliasArg, rfl⟩
    | some item => exact ⟨updateExistingDependency item version aliasArg, rfl⟩
  obtain ⟨X, hX⟩ := hstep
  have hbind : (updateMod doc name version aliasArg >>= fun d => removeDepDoc d name)
      = removeDepDoc (assocSet doc "dependencies" (.table (assocSet deps name X))) name := by
    rw [hX]
    rfl
  have hrem : removeDepDoc (assocSet doc "dependencies" (.table (assocSet deps name X))) name
      = .ok (assocSet doc "dependencies" (.table (assocRemove deps name).2)) := by
    unfold removeDepDoc
    rw [assoc_assocSet_self]
    dsimp only
    rw [assocRemove_assocSet]
    dsimp only
    rw [assocSet_assocSet]
  refine ⟨by rw [hbind, hrem], fun habs => ?_⟩
  rw [hbind, hrem, assocRemove_none habs]
  rw [assocSet_same hdeps]

/-- Witness for C9 amended, on a manifest whose `dependencies` table
already holds the name: the round trip deletes exactly that entry. -/
theorem upsert_remove_roundtrip_witness :
    ((updateMod [("dependencies", .table [("foo", .str "1.0.0"), ("bar", .str "2.0.0")])]
        "foo" "1.2.0" none >>= fun d => removeDepDoc d "foo")
      = .ok (assocSet [("dependencies", .table [("foo", .str "1.0.0"), ("bar", .str "2.0.0")])]
          "dependencies" (.table (assocRemove [("foo", TItem.str "1.0.0"),
            ("bar", TItem.str "2.0.0")] "foo").2))) ∧
    ((updateMod [("dependencies", .table [("bar", .str "2.0.0")])] "foo" "1.2.0" none >>=
        fun d => removeDepDoc d "foo")
      = .ok [("dependencies", .table [("bar", .str "2.0.0")])]) := by
  constructor
  · exact (upsert_remove_roundtrip
      [("dependencies", .table [("foo", .str "1.0.0"), ("bar", .str "2.0.0")])]
      [("foo", .str "1.0.0"), ("bar", .str "2.0.0")] "foo" "1.2.0" none rfl).1
  · exact (upsert_remove_roundtrip [("dependencies", .table [("bar", .str "2.0.0")])]
      [("bar", .str "2.0.0")] "foo" "1.2.0" none rfl).2 rfl

/-! ## Claim C10 -/

theorem rsplitOnce_none_iff {sep : Char} : ∀ {l : List Char},
    rsplitOnce sep l = none ↔ sep ∉ l := by
  intro l
  induction l with
  | nil => simp [rsplitOnce]
  | cons c rest ih =>
    unfold rsplitOnce
    cases hr : rsplitOnce sep rest with
    | some p =>
      dsimp only
      constructor
      · intro h
        exact absurd h (by simp)
      · intro h
        rw [List.mem_cons] at h
        push_neg at h
        exact absurd hr (by rw [ih.2 h.2]; simp)
    | none =>
      dsimp only
      have hrest := ih.1 hr
      by_cases hc : c = sep
      · subst hc
        simp
      · rw [if_neg hc]
        simp [hrest, Ne.symm hc]

theorem rsplitOnce_last {sep : Char} : ∀ (b a : List Char), sep ∉ a →
    rsplitOnce sep (b ++ sep :: a) = some (b, a) := by
  intro b
  induction b with
  | nil =>
    intro a ha
    show rsplitOnce sep (sep :: a) = some ([], a)
    unfold rsplitOnce
    rw [rsplitOnce_none_iff.2 ha]
    dsimp only
    rw [if_pos rfl]
  | cons c rest ih =>
    intro a ha
    show rsplitOnce sep (c :: (rest ++ sep :: a)) = some (c :: rest, a)
    unfold rsplitOnce
    rw [ih a ha]

/-- C10 counterexample: the dependency name `"foo/"` has a separator but
an empty trailing segment, yet it is not rejected: `repository_name`
returns the empty default alias, and `remove` on a manifest containing
the entry succeeds rather than signalling a fatal input error. -/
theorem repository_name_empty_segment_ok :
    repository_name "foo/" = some "" ∧
    (remove "foo/" ⟨[], [], .parsed [("dependencies", .table [("foo/", .str "1.0.0")])],
        0, none⟩).1 = .ok () := by
  constructor <;> rfl

/-- C10 amended: a dependency name is rejected with the fatal
invalid-repository-URL error exactly when it contains no separator at
all (an empty trailing segment is accepted and becomes the empty default
alias); the check fires in `get` only when no alias is given, and in
`remove` in the mirror-deletion step. -/
theorem repository_name_spec :
    (∀ name : String, repository_name name = none ↔ '/' ∉ name.data) ∧
    (∀ (name : String) (b a : List Char), name.data = b ++ '/' :: a → '/' ∉ a →
      repository_name name = some ⟨a⟩) ∧
    (∀ (w : World) (name : String) (version : Option String), '/' ∉ name.data →
      get w name version none = .error .invalidRepositoryUrl) ∧
    (∀ (w : World) (name : String),
      (removeRepoW name w).1 = .error .invalidRepositoryUrl ↔ '/' ∉ name.data) := by
  refine ⟨?_, ?_, ?_, ?_⟩
  · intro name
    unfold repository_name
    rw [← @rsplitOnce_none_iff '/' name.data]
    cases rsplitOnce '/' name.data <;> simp
  · intro name b a hdata ha
    unfold repository_name
    rw [hdata, rsplitOnce_last b a ha]
    rfl
  · intro w name version h
    have hrn : repository_name name = none := by
      unfold repository_name
      rw [rsplitOnce_none_iff.2 h]
      rfl
    unfold get
    rw [hrn]
  · intro w name
    unfold removeRepoW
    cases hrn : repository_name name with
    | none =>
      have : '/' ∉ name.data := by
        unfold repository_name at hrn
        rw [← @rsplitOnce_none_iff '/' name.data]
        cases h : rsplitOnce '/' name.data with
        | none => rfl
        | some p => rw [h] at hrn; exact absurd hrn (by simp)
      simp [this]
    | some rn =>
      dsimp only
      have hmem : '/' ∈ name.data := by
        by_contra hc
        unfold repository_name at hrn
        rw [rsplitOnce_none_iff.2 hc] at hrn
        exact absurd hrn (by simp)
      cases hm : assoc w.mirrors (".bend/" ++ rn) <;> simp [hmem]

/-- Witness for C10 amended at concrete names. -/
theorem repository_name_spec_witness :
    (repository_name "noslash" = none ↔ '/' ∉ ("noslash" : String).data) ∧
    (repository_name "user/repo" = some "repo") ∧
    (get ⟨[], [], .missing, 0, none⟩ "noslash" none none
      = .error .invalidRepositoryUrl) ∧
    ((removeRepoW "noslash" ⟨[], [], .missing, 0, none⟩).1
      = .error .invalidRepositoryUrl ↔ '/' ∉ ("noslash" : String).data) := by
  refine ⟨repository_name_spec.1 "noslash", ?_, ?_, repository_name_spec.2.2.2 _ "noslash"⟩
  · exact repository_name_spec.2.1 "user/repo" ['u', 's', 'e', 'r']
      ['r', 'e', 'p', 'o'] rfl (by decide)
  · exact repository_name_spec.2.2.1 _ "noslash" none (by decide)

/-! ## Claim C2 -/

theorem refreshTags_ok {w : World} {r : RemoteRepo} {url : String}
    (hr : assoc w.remotes url = some r) (repo : RepoState) :
    refreshTags w repo url = .ok { repo with tags := r.tags } := by
  unfold refreshTags fetchTags deleteLocalTags
  rw [hr]
  dsimp only
  have hfil : r.tags.filter (fun t => !(List.contains ([] : List String) t)) = r.tags :=
    List.filter_eq_self.2 (fun a _ => rfl)
  rw [hfil, List.nil_append]

theorem refreshTags_ok_inv {w : World} {url : String} {repo repo' : RepoState}
    (h : refreshTags w repo url = .ok repo') :
    ∃ r, assoc w.remotes url = some r := by
  unfold refreshTags fetchTags at h
  cases hr : assoc w.remotes url with
  | none =>
    rw [hr] at h
    exact absurd h (by simp)
  | some r => exact ⟨r, rfl⟩

/-- C2: every fetch re-synchronizes the tags: whatever the prior remote
configuration (absent, wrong URL, or already correct), `setup_remote`
concludes by refreshing tags against the remote, after which the local
tag set exactly equals the remote's tag set — in particular no
locally-added or stale tag survives — and the named remote points at the
requested URL. -/
theorem setup_remote_resync (w : World) (repo : RepoState) (url remoteName : String)
    (r : RemoteRepo) (hr : assoc w.remotes url = some r) :
    ∃ repo', setupRemote w repo url remoteName = .ok repo' ∧
      repo'.tags = r.tags ∧
      (∀ t, t ∈ repo.tags → t ∉ r.tags → t ∉ repo'.tags) ∧
      assoc repo'.remotes remoteName = some url ∧
      repo'.head = repo.head ∧ repo'.extraRevs = repo.extraRevs := by
  unfold setupRemote
  cases hf : assoc repo.remotes remoteName with
  | none =>
    dsimp only
    rw [refreshTags_ok hr]
    refine ⟨_, rfl, rfl, ?_, ?_, rfl, rfl⟩
    · intro t _ hnr hmem
      exact hnr hmem
    · exact assoc_assocSet_self _ _ _
  | some u =>
    dsimp only
    by_cases hu : u = url
    · rw [if_neg (by simp [hu])]
      rw [refreshTags_ok hr]
      refine ⟨_, rfl, rfl, ?_, ?_, rfl, rfl⟩
      · intro t _ hnr hmem
        exact hnr hmem
      · rw [hf, hu]
    · rw [if_pos hu]
      rw [refreshTags_ok hr]
      refine ⟨_, rfl, rfl, ?_, ?_, rfl, rfl⟩
      · intro t _ hnr hmem
        exact hnr hmem
      · exact assoc_assocSet_self _ _ _

/-- Witness for C2 with a stale local tag, a stale remote registration,
and a remote carrying a fresh tag set. -/
theorem setup_remote_resync_witness :
    ∃ repo', setupRemote
        ⟨[], [("https://h/u/r.git", ⟨["2.0.0"]⟩)], .missing, 0, none⟩
        ⟨["stale"], [("origin", "https://old.example")], none, []⟩
        "https://h/u/r.git" "origin" = .ok repo' ∧
      repo'.tags = (⟨["2.0.0"]⟩ : RemoteRepo).tags ∧
      (∀ t, t ∈ ["stale"] → t ∉ (⟨["2.0.0"]⟩ : RemoteRepo).tags → t ∉ repo'.tags) ∧
      assoc repo'.remotes "origin" = some "https://h/u/r.git" ∧
      repo'.head = (⟨["stale"], [("origin", "https://old.example")], none, []⟩ : RepoState).head ∧
      repo'.extraRevs
        = (⟨["stale"], [("origin", "https://old.example")], none, []⟩ : RepoState).extraRevs :=
  setup_remote_resync _ _ _ "origin" ⟨["2.0.0"]⟩ rfl

/-! ## Lemmas on `setup_repo` -/

theorem checkoutTag_ok {w : World} {repo : RepoState} {tag : String}
    (hres : (repo.tags.contains tag || repo.extraRevs.contains tag) = true)
    (hf : w.checkoutFault = none) :
    checkoutTag w repo tag = .ok { repo with head := some tag } := by
  unfold checkoutTag
  rw [if_pos hres, hf]

theorem checkoutTag_not_found {w : World} {repo : RepoState} {tag : String}
    (hres : ¬(repo.tags.contains tag || repo.extraRevs.contains tag) = true) :
    checkoutTag w repo tag = .error ⟨true, "revspec not found"⟩ := by
  unfold checkoutTag
  rw [if_neg hres]

theorem checkoutTag_fault {w : World} {repo : RepoState} {tag : String} {e : GitError}
    (hres : (repo.tags.contains tag || repo.extraRevs.contains tag) = true)
    (hf : w.checkoutFault = some e) :
    checkoutTag w repo tag = .error e := by
  unfold checkoutTag
  rw [if_pos hres, hf]

theorem checkoutTag_ok_inv {w : World} {repo : RepoState} {tag : String}
    {repo' : RepoState} (h : checkoutTag w repo tag = .ok repo') :
    (repo.tags.contains tag || repo.extraRevs.contains tag) = true ∧
    w.checkoutFault = none ∧ repo' = { repo with head := some tag } := by
  unfold checkoutTag at h
  by_cases hres : (repo.tags.contains tag || repo.extraRevs.contains tag) = true
  · rw [if_pos hres] at h
    cases hf : w.checkoutFault with
    | some e =>
      rw [hf] at h
      exact absurd h (by simp)
    | none =>
      rw [hf] at h
      dsimp only at h
      injection h with h
      exact ⟨hres, rfl, h.symm⟩
  · rw [if_neg hres] at h
    exact absurd h (by simp)

theorem setupRemote_ok_fwd {w : World} (repo : RepoState) {url : String} (n : String)
    {r : RemoteRepo} (hr : assoc w.remotes url = some r) :
    setupRemote w repo url n = .ok
      { tags := r.tags,
        remotes := (match assoc repo.remotes n with
                    | some u => if u = url then repo.remotes else assocSet repo.remotes n url
                    | none => assocSet repo.remotes n url),
        head := repo.head, extraRevs := repo.extraRevs } := by
  unfold setupRemote
  cases hf : assoc repo.remotes n with
  | none =>
    dsimp only
    rw [refreshTags_ok hr]
  | some u =>
    dsimp only
    by_cases hu : u = url
    · rw [if_neg (by simp [hu]), refreshTags_ok hr, if_pos hu]
    · rw [if_pos hu, refreshTags_ok hr, if_neg hu]

theorem setupRemote_err_no_remote {w : World} {repo : RepoState} {url n : String}
    (hr : assoc w.remotes url = none) :
    setupRemote w repo url n = .error ⟨false, "failed to resolve address"⟩ := by
  unfold setupRemote refreshTags fetchTags
  cases hf : assoc repo.remotes n with
  | none =>
    dsimp only
    rw [hr]
  | some u =>
    dsimp only
    by_cases hu : u ≠ url
    · rw [if_pos hu]
      rw [hr]
    · rw [if_neg hu]
      rw [hr]

theorem setupRemote_ok_inv {w : World} {repo : RepoState} {url n : String}
    {repo' : RepoState} (h : setupRemote w repo url n = .ok repo') :
    ∃ r, assoc w.remotes url = some r ∧
      repo' = { tags := r.tags,
                remotes := (match assoc repo.remotes n with
                            | some u => if u = url then repo.remotes
                                        else assocSet repo.remotes n url
                            | none => assocSet repo.remotes n url),
                head := repo.head, extraRevs := repo.extraRevs } := by
  cases hr : assoc w.remotes url with
  | none =>
    rw [setupRemote_err_no_remote hr] at h
    exact absurd h (by simp)
  | some r =>
    rw [setupRemote_ok_fwd repo n hr] at h
    injection h with h
    exact ⟨r, rfl, h.symm⟩

theorem remotes_after_setup {repo₀ : RepoState} {n url : String} :
    assoc (match assoc repo₀.remotes n with
           | some u => if u = url then repo₀.remotes else assocSet repo₀.remotes n url
           | none => assocSet repo₀.remotes n url) n = some url := by
  cases hf : assoc repo₀.remotes n with
  | none => exact assoc_assocSet_self _ _ _
  | some u =>
    dsimp only
    by_cases hu : u = url
    · rw [if_pos hu, hf, hu]
    · rw [if_neg hu]
      exact assoc_assocSet_self _ _ _

theorem setupRepo_eq_existing {w : World} {path : String} (url : String)
    (version : Option String) {repo₀ : RepoState}
    (hm : assoc w.mirrors path = some repo₀) :
    setupRepo w path url version
      = match setupRemote w repo₀ url "origin" with
        | .error e => .error (.gitInfra e.message)
        | .ok repo₁ =>
          match (match version with
                 | some ver => Except.ok ver
                 | none => getLatestTag repo₁.tags) with
          | .error e => .error e
          | .ok tag =>
            match checkoutTag w repo₁ tag with
            | .error err =>
              if err.isReference then .error (.versionNotFound tag url)
              else .error (.gitInfra err.message)
            | .ok repo₂ => .ok (tag, { w with mirrors := assocSet w.mirrors path repo₂ }) := by
  unfold setupRepo
  rw [hm]

theorem setupRepo_eq_missing {w : World} {path : String} (url : String)
    (version : Option String) (hm : assoc w.mirrors path = none) :
    setupRepo w path url version
      = match setupRemote { w with initCount := w.initCount + 1 } emptyRepo url "origin" with
        | .error e => .error (.gitInfra e.message)
        | .ok repo₁ =>
          match (match version with
                 | some ver => Except.ok ver
                 | none => getLatestTag repo₁.tags) with
          | .error e => .error e
          | .ok tag =>
            match checkoutTag { w with initCount := w.initCount + 1 } repo₁ tag with
            | .error err =>
              if err.isReference then .error (.versionNotFound tag url)
              else .error (.gitInfra err.message)
            | .ok repo₂ =>
              .ok (tag, { w with mirrors := assocSet w.mirrors path repo₂,
                                 initCount := w.initCount + 1 }) := by
  unfold setupRepo
  rw [hm]

theorem setupRepoTail_ok_inv (wX : World) (url : String) (version : Option String)
    (repo₁ : RepoState) (f : RepoState → World) {tag : String} {w' : World}
    (h : (match (match version with
                 | some ver => Except.ok ver
                 | none => getLatestTag repo₁.tags) with
          | .error e => (Except.error e : Except BendError (String × World))
          | .ok tg =>
            match checkoutTag wX repo₁ tg with
            | .error err =>
              if err.isReference then .error (.versionNotFound tg url)
              else .error (.gitInfra err.message)
            | .ok repo₂ => .ok (tg, f repo₂)) = .ok (tag, w')) :
    (version = some tag ∨ (version = none ∧ getLatestTag repo₁.tags = .ok tag)) ∧
    (repo₁.tags.contains tag || repo₁.extraRevs.contains tag) = true ∧
    wX.checkoutFault = none ∧
    w' = f { repo₁ with head := some tag } := by
  cases version with
  | some ver =>
    dsimp only at h
    cases hc : checkoutTag wX repo₁ ver with
    | error err =>
      rw [hc] at h
      dsimp only at h
      split at h <;> exact absurd h (by simp)
    | ok repo₂ =>
      rw [hc] at h
      dsimp only at h
      injection h with h
      have htag : ver = tag := congrArg Prod.fst h
      have hw' : f repo₂ = w' := congrArg Prod.snd h
      obtain ⟨hres, hfault, hrepo₂⟩ := checkoutTag_ok_inv hc
      subst htag
      exact ⟨.inl rfl, hres, hfault, by rw [← hw', hrepo₂]⟩
  | none =>
    dsimp only at h
    cases hlt : getLatestTag repo₁.tags with
    | error e =>
      rw [hlt] at h
      exact absurd h (by simp)
    | ok t' =>
      rw [hlt] at h
      dsimp only at h
      cases hc : checkoutTag wX repo₁ t' with
      | error err =>
        rw [hc] at h
        dsimp only at h
        split at h <;> exact absurd h (by simp)
      | ok repo₂ =>
        rw [hc] at h
        dsimp only at h
        injection h with h
        have htag : t' = tag := congrArg Prod.fst h
        have hw' : f repo₂ = w' := congrArg Prod.snd h
        obtain ⟨hres, hfault, hrepo₂⟩ := checkoutTag_ok_inv hc
        subst htag
        exact ⟨.inr ⟨rfl, rfl⟩, hres, hfault, by rw [← hw', hrepo₂]⟩

theorem setupRepo_ok_inv {w : World} {path url : String} {version : Option String}
    {tag : String} {w' : World} (h : setupRepo w path url version = .ok (tag, w')) :
    ∃ (repo₀ : RepoState) (bump : Nat) (r : RemoteRepo),
      ((assoc w.mirrors path = some repo₀ ∧ bump = 0) ∨
        (assoc w.mirrors path = none ∧ repo₀ = emptyRepo ∧ bump = 1)) ∧
      assoc w.remotes url = some r ∧
      (version = some tag ∨ (version = none ∧ getLatestTag r.tags = .ok tag)) ∧
      (r.tags.contains tag || repo₀.extraRevs.contains tag) = true ∧
      w.checkoutFault = none ∧
      w' = { w with
             mirrors := assocSet w.mirrors path
               ⟨r.tags,
                (match assoc repo₀.remotes "origin" with
                 | some u => if u = url then repo₀.remotes
                             else assocSet repo₀.remotes "origin" url
                 | none => assocSet repo₀.remotes "origin" url),
                some tag, repo₀.extraRevs⟩,
             initCount := w.initCount + bump } := by
  cases hm : assoc w.mirrors path with
  | some repo₀ =>
    rw [setupRepo_eq_existing url version hm] at h
    cases hsr : setupRemote w repo₀ url "origin" with
    | error e =>
      rw [hsr] at h
      exact absurd h (by simp)
    | ok repo₁ =>
      rw [hsr] at h
      dsimp only at h
      obtain ⟨r, hr, hrepo₁⟩ := setupRemote_ok_inv hsr
      obtain ⟨hver, hres, hfault, hw'⟩ := setupRepoTail_ok_inv w url version repo₁
        (fun repo₂ => { w with mirrors := assocSet w.mirrors path repo₂ }) h
      subst hrepo₁
      refine ⟨repo₀, 0, r, .inl ⟨rfl, rfl⟩, hr, hver, hres, hfault, ?_⟩
      rw [hw']
      rfl
  | none =>
    rw [setupRepo_eq_missing url version hm] at h
    cases hsr : setupRemote { w with initCount := w.initCount + 1 } emptyRepo url "origin" with
    | error e =>
      rw [hsr] at h
      exact absurd h (by simp)
    | ok repo₁ =>
      rw [hsr] at h
      dsimp only at h
      obtain ⟨r, hr, hrepo₁⟩ := setupRemote_ok_inv hsr
      obtain ⟨hver, hres, hfault, hw'⟩ :=
        setupRepoTail_ok_inv { w with initCount := w.initCount + 1 } url version repo₁
          (fun repo₂ => { w with mirrors := assocSet w.mirrors path repo₂,
                                 initCount := w.initCount + 1 }) h
      subst hrepo₁
      refine ⟨emptyRepo, 1, r, .inr ⟨rfl, rfl, rfl⟩, hr, hver, hres, hfault, ?_⟩
      rw [hw']

theorem getLatestTag_error_shape {tags : List String} {e : BendError}
    (h : getLatestTag tags = .error e) : e = .noTagsFound := by
  unfold getLatestTag at h
  cases hf : tags.foldl pickLatest none with
  | some v =>
    rw [hf] at h
    exact absurd h (by simp)
  | none =>
    rw [hf] at h
    injection h with h
    exact h.symm

theorem getLatestTag_error_iff {tags : List String} :
    getLatestTag tags = .error .noTagsFound ↔ ∀ t ∈ tags, Version.parse t = none := by
  unfold getLatestTag
  cases hf : tags.foldl pickLatest none with
  | none =>
    simp only []
    exact ⟨fun _ => (foldl_pickLatest_none.mp hf).2, fun _ => trivial⟩
  | some v =>
    simp only []
    constructor
    · intro hcontra
      exact absurd hcontra (by simp)
    · intro hall
      exact absurd hf (by rw [foldl_pickLatest_none.2 ⟨rfl, hall⟩]; simp)

/-! ## Claim C3 -/

/-- C3: `setup_repo` opens an existing mirror at the path when one
exists and otherwise initialises a new empty one (the initialisation
counter is bumped exactly when the mirror was absent, and an existing
mirror's repository data is reused); it uses the requested version
verbatim when one is given and otherwise resolves the latest parseable
tag of the synchronized tag set; with no requested version it fails with
the no-tags-found error exactly when no tag of the remote parses; and on
success it returns the version string that was actually checked out (the
mirror's head ends up on the returned tag). -/
theorem setup_repo_spec :
    (∀ (w : World) (path url : String) (version : Option String) (tag : String)
        (w' : World),
      setupRepo w path url version = .ok (tag, w') →
      (version = some tag ∨
        (version = none ∧
          ∃ r, assoc w.remotes url = some r ∧ getLatestTag r.tags = .ok tag)) ∧
      (assoc w'.mirrors path).map RepoState.head = some (some tag) ∧
      w'.initCount = (match assoc w.mirrors path with
                      | some _ => w.initCount
                      | none => w.initCount + 1) ∧
      (∀ repo₀, assoc w.mirrors path = some repo₀ →
        (assoc w'.mirrors path).map RepoState.extraRevs = some repo₀.extraRevs)) ∧
    (∀ (w : World) (path url : String) (r : RemoteRepo),
      assoc w.remotes url = some r →
      (setupRepo w path url none = .error .noTagsFound ↔
        ∀ t ∈ r.tags, Version.parse t = none)) := by
  constructor
  · intro w path url version tag w' h
    obtain ⟨repo₀, bump, r, hcase, hr, hver, hres, hfault, hw'⟩ := setupRepo_ok_inv h
    refine ⟨?_, ?_, ?_, ?_⟩
    · rcases hver with hv | ⟨hv, hlt⟩
      · exact .inl hv
      · exact .inr ⟨hv, r, hr, hlt⟩
    · rw [hw']
      dsimp only
      rw [assoc_assocSet_self]
      rfl
    · rw [hw']
      rcases hcase with ⟨hm, hb⟩ | ⟨hm, -, hb⟩
      · rw [hm, hb]
        rfl
      · rw [hm, hb]
    · intro repo₀' hm'
      rcases hcase with ⟨hm, -⟩ | ⟨hm, -, -⟩
      · rw [hm] at hm'
        injection hm' with hm'
        rw [hw']
        dsimp only
        rw [assoc_assocSet_self, hm']
        rfl
      · rw [hm] at hm'
        exact absurd hm' (by simp)
  · intro w path url r hr
    cases hm : assoc w.mirrors path with
    | some repo₀ =>
      rw [setupRepo_eq_existing url none hm, setupRemote_ok_fwd repo₀ "origin" hr]
      dsimp only
      cases hlt : getLatestTag r.tags with
      | error e =>
        have he := getLatestTag_error_shape hlt
        subst he
        dsimp only
        exact ⟨fun _ => getLatestTag_error_iff.1 hlt, fun _ => rfl⟩
      | ok tg =>
        dsimp only
        constructor
        · intro hcontra
          split at hcontra
          · split at hcontra <;> simp at hcontra
          · simp at hcontra
        · intro hall
          exact absurd hlt (by rw [getLatestTag_error_iff.2 hall]; simp)
    | none =>
      rw [setupRepo_eq_missing url none hm,
        setupRemote_ok_fwd (w := { w with initCount := w.initCount + 1 }) emptyRepo "origin" hr]
      dsimp only
      cases hlt : getLatestTag r.tags with
      | error e =>
        have he := getLatestTag_error_shape hlt
        subst he
        dsimp only
        exact ⟨fun _ => getLatestTag_error_iff.1 hlt, fun _ => rfl⟩
      | ok tg =>
        dsimp only
        constructor
        · intro hcontra
          split at hcontra
          · split at hcontra <;> simp at hcontra
          · simp at hcontra
        · intro hall
          exact absurd hlt (by rw [getLatestTag_error_iff.2 hall]; simp)

/-- Witness for C3: a fresh mirror is initialised (counter bumped), the
latest parseable tag is resolved and checked out, and with a tagless
remote the no-tags-found error is signalled. -/
theorem setup_repo_spec_witness :
    (assoc (⟨[(".bend/r", ⟨["1.2.3"], [("origin", "https://u/r.git")], some "1.2.3", []⟩)],
        [("https://u/r.git", ⟨["1.2.3"]⟩)], .missing, 1, none⟩ : World).mirrors
      ".bend/r").map RepoState.head = some (some "1.2.3") ∧
    (⟨[(".bend/r", ⟨["1.2.3"], [("origin", "https://u/r.git")], some "1.2.3", []⟩)],
        [("https://u/r.git", ⟨["1.2.3"]⟩)], .missing, 1, none⟩ : World).initCount
      = (match assoc (⟨[], [("https://u/r.git", ⟨["1.2.3"]⟩)], .missing, 0, none⟩
          : World).mirrors ".bend/r" with
         | some _ => 0
         | none => 0 + 1) ∧
    setupRepo ⟨[], [("https://u/r.git", ⟨[]⟩)], .missing, 0, none⟩
      ".bend/r" "https://u/r.git" none = .error .noTagsFound := by
  refine ⟨?_, ?_, ?_⟩
  · exact (setup_repo_spec.1 ⟨[], [("https://u/r.git", ⟨["1.2.3"]⟩)], .missing, 0, none⟩
      ".bend/r" "https://u/r.git" none "1.2.3"
      ⟨[(".bend/r", ⟨["1.2.3"], [("origin", "https://u/r.git")], some "1.2.3", []⟩)],
        [("https://u/r.git", ⟨["1.2.3"]⟩)], .missing, 1, none⟩ rfl).2.1
  · exact (setup_repo_spec.1 ⟨[], [("https://u/r.git", ⟨["1.2.3"]⟩)], .missing, 0, none⟩
      ".bend/r" "https://u/r.git" none "1.2.3"
      ⟨[(".bend/r", ⟨["1.2.3"], [("origin", "https://u/r.git")], some "1.2.3", []⟩)],
        [("https://u/r.git", ⟨["1.2.3"]⟩)], .missing, 1, none⟩ rfl).2.2.1
  · exact (setup_repo_spec.2 ⟨[], [("https://u/r.git", ⟨[]⟩)], .missing, 0, none⟩
      ".bend/r" "https://u/r.git" ⟨[]⟩ rfl).2 (by simp)

/-! ## Claim C4 -/

/-- C4: when the checkout of the target version fails because the
reference does not exist (the revision is neither a synchronized tag nor
another resolvable revision, so `revparse_ext` fails with class
`Reference`), `setup_repo` signals the version-not-found error carrying
both the version string and the URL; a checkout failure of any other
error class is surfaced as an opaque infrastructure error carrying only
the git message. -/
theorem checkout_error_classification :
    (∀ (w : World) (path url : String) (repo₀ : RepoState) (r : RemoteRepo) (ver : String),
      assoc w.mirrors path = some repo₀ →
      assoc w.remotes url = some r →
      ver ∉ r.tags → ver ∉ repo₀.extraRevs →
      setupRepo w path url (some ver) = .error (.versionNotFound ver url)) ∧
    (∀ (w : World) (path url : String) (repo₀ : RepoState) (r : RemoteRepo) (ver : String)
        (e : GitError),
      assoc w.mirrors path = some repo₀ →
      assoc w.remotes url = some r →
      (ver ∈ r.tags ∨ ver ∈ repo₀.extraRevs) →
      w.checkoutFault = some e → e.isReference = false →
      setupRepo w path url (some ver) = .error (.gitInfra e.message)) := by
  constructor
  · intro w path url repo₀ r ver hm hr htag hrev
    rw [setupRepo_eq_existing url (some ver) hm, setupRemote_ok_fwd repo₀ "origin" hr]
    dsimp only
    rw [checkoutTag_not_found (by simp [htag, hrev])]
    rfl
  · intro w path url repo₀ r ver e hm hr hres hfault hcls
    rw [setupRepo_eq_existing url (some ver) hm, setupRemote_ok_fwd repo₀ "origin" hr]
    dsimp only
    rw [checkoutTag_fault (by rcases hres with h | h <;> simp [h]) hfault]
    dsimp only
    rw [hcls]
    rfl

/-- Witness for C4: a missing tag yields the version-not-found error
with version and URL; an injected non-reference checkout failure is
surfaced opaquely. -/
theorem checkout_error_classification_witness :
    setupRepo ⟨[(".bend/r", ⟨[], [], none, []⟩)], [("https://u/r.git", ⟨["1.0.0"]⟩)],
        .missing, 0, none⟩ ".bend/r" "https://u/r.git" (some "9.9.9")
      = .error (.versionNotFound "9.9.9" "https://u/r.git") ∧
    setupRepo ⟨[(".bend/r", ⟨[], [], none, []⟩)], [("https://u/r.git", ⟨["1.0.0"]⟩)],
        .missing, 0, some ⟨false, "disk full"⟩⟩ ".bend/r" "https://u/r.git" (some "1.0.0")
      = .error (.gitInfra "disk full") := by
  constructor
  · exact checkout_error_classification.1
      ⟨[(".bend/r", ⟨[], [], none, []⟩)], [("https://u/r.git", ⟨["1.0.0"]⟩)], .missing, 0, none⟩
      ".bend/r" "https://u/r.git" ⟨[], [], none, []⟩ ⟨["1.0.0"]⟩ "9.9.9"
      rfl rfl (by decide) (by decide)
  · exact checkout_error_classification.2
      ⟨[(".bend/r", ⟨[], [], none, []⟩)], [("https://u/r.git", ⟨["1.0.0"]⟩)], .missing, 0,
        some ⟨false, "disk full"⟩⟩
      ".bend/r" "https://u/r.git" ⟨[], [], none, []⟩ ⟨["1.0.0"]⟩ "1.0.0" ⟨false, "disk full"⟩
      rfl rfl (.inl (by decide)) rfl rfl

/-! ## Claim C8 -/

theorem assoc_append_right {α : Type} {l : List (String × α)} {k : String} (v : α)
    (h : assoc l k = none) : assoc (l ++ [(k, v)]) k = some v := by
  induction l with
  | nil => simp [assoc]
  | cons p rest ih =>
    obtain ⟨k₀, v₀⟩ := p
    by_cases hk : k₀ = k
    · subst hk
      rw [assoc_cons_eq] at h
      exact absurd h (by simp)
    · rw [assoc_cons_ne hk] at h
      rw [List.cons_append, assoc_cons_ne hk, ih h]

theorem updateExisting_newDependency (version : String) (aliasArg : Option String) :
    updateExistingDependency (newDependency version aliasArg) version aliasArg
      = newDependency version aliasArg := by
  cases aliasArg with
  | none => rfl
  | some a => rfl

theorem updateExistingDependency_idem (item : TItem) (version : String)
    (aliasArg : Option String)
    (hwf : ∀ t, item = .table t → (t.map Prod.fst).Nodup) :
    updateExistingDependency (updateExistingDependency item version aliasArg)
        version aliasArg
      = updateExistingDependency item version aliasArg := by
  cases item with
  | str s => exact updateExisting_newDependency version aliasArg
  | table t =>
    have ht := hwf t rfl
    cases aliasArg with
    | some a =>
      show TItem.table (assocSet (assocSet
            (assocSet (assocSet t "version" (.str version)) "alias" (.str a))
            "version" (.str version)) "alias" (.str a))
        = TItem.table (assocSet (assocSet t "version" (.str version)) "alias" (.str a))
      rw [assocSet_same (show assoc (assocSet (assocSet t "version" (.str version))
          "alias" (.str a)) "version" = some (.str version) by
        rw [assoc_assocSet_ne _ _ (by decide)]
        exact assoc_assocSet_self _ _ _)]
      rw [assocSet_same (assoc_assocSet_self _ _ _)]
    | none =>
      show TItem.table (assocRemove (assocSet
            ((assocRemove (assocSet t "version" (.str version)) "alias").2)
            "version" (.str version)) "alias").2
        = TItem.table ((assocRemove (assocSet t "version" (.str version)) "alias").2)
      rw [assocSet_same (show assoc ((assocRemove (assocSet t "version" (.str version))
          "alias").2) "version" = some (.str version) by
        rw [assocRemove_snd_ne _ (by decide)]
        exact assoc_assocSet_self _ _ _)]
      rw [assocRemove_none (assocRemove_self_of_nodup (assocSet_nodup ht))]

theorem updateMod_idem {doc doc' : Doc} {name version : String} {aliasArg : Option String}
    (hwf : ∀ deps t, assoc doc "dependencies" = some (.table deps) →
      assoc deps name = some (.table t) → (t.map Prod.fst).Nodup)
    (h : updateMod doc name version aliasArg = .ok doc') :
    updateMod doc' name version aliasArg = .ok doc' := by
  unfold updateMod at h
  cases hdeps : assoc doc "dependencies" with
  | some item =>
    cases item with
    | str s =>
      rw [hdeps] at h
      exact absurd h (by simp)
    | table deps =>
      rw [hdeps] at h
      dsimp only at h
      cases hentry : assoc deps name with
      | none =>
        rw [hentry] at h
        injection h with h
        subst h
        unfold updateMod
        rw [assoc_assocSet_self]
        dsimp only
        rw [assoc_assocSet_self]
        dsimp only
        rw [updateExisting_newDependency]
        rw [assocSet_same (assoc_assocSet_self _ _ _)]
        rw [assocSet_same (assoc_assocSet_self _ _ _)]
      | some entry =>
        rw [hentry] at h
        injection h with h
        subst h
        unfold updateMod
        rw [assoc_assocSet_self]
        dsimp only
        rw [assoc_assocSet_self]
        dsimp only
        rw [updateExistingDependency_idem entry version aliasArg
          (fun t hti => hwf deps t hdeps (hti ▸ hentry))]
        rw [assocSet_same (assoc_assocSet_self _ _ _)]
        rw [assocSet_same (assoc_assocSet_self _ _ _)]
  | none =>
    rw [hdeps] at h
    dsimp only at h
    injection h with h
    subst h
    unfold updateMod
    rw [assoc_append_right _ hdeps]
    dsimp only
    rw [assoc_assocSet_self]
    dsimp only
    rw [updateExisting_newDependency]
    rw [assocSet_same (assoc_assocSet_self _ _ _)]
    rw [assocSet_same (assoc_append_right _ hdeps)]

theorem getConfig_ok_inv {m : ManifestFile} {doc : Doc} (h : getConfig m = .ok doc) :
    m = .parsed doc := by
  cases m with
  | parsed d =>
    injection h with h
    rw [h]
  | invalid => exact absurd h (by simp [getConfig])
  | missing => exact absurd h (by simp [getConfig])

theorem get_unfold {w : World} {name : String} {version aliasArg : Option String}
    {repoName : String}
    (hrn : (match aliasArg with
            | some a => Except.ok a
            | none =>
              match repository_name name with
              | some r => Except.ok r
              | none => Except.error BendError.invalidRepositoryUrl)
        = Except.ok repoName) :
    get w name version aliasArg
      = match setupRepo w (".bend/" ++ repoName) ("https://" ++ name ++ ".git") version with
        | .error e => .error e
        | .ok (tag, w₁) =>
          match getConfig w₁.manifest with
          | .error e => .error e
          | .ok doc =>
            match updateMod doc name tag aliasArg with
            | .ok doc' => .ok { w₁ with manifest := .parsed doc' }
            | .error e => .error e := by
  unfold get
  rw [hrn]

theorem get_ok_inv {w : World} {name : String} {version aliasArg : Option String}
    {wOut : World} (h : get w name version aliasArg = .ok wOut) :
    ∃ repoName tag wA doc doc',
      (match aliasArg with
       | some a => Except.ok a
       | none =>
         match repository_name name with
         | some r => Except.ok r
         | none => Except.error BendError.invalidRepositoryUrl)
        = Except.ok (repoName : String) ∧
      setupRepo w (".bend/" ++ repoName) ("https://" ++ name ++ ".git") version
        = .ok (tag, wA) ∧
      wA.manifest = .parsed doc ∧
      updateMod doc name tag aliasArg = .ok doc' ∧
      wOut = { wA with manifest := .parsed doc' } := by
  obtain ⟨repoName, hrnE⟩ : ∃ repoName, (match aliasArg with
      | some a => Except.ok a
      | none =>
        match repository_name name with
        | some r => Except.ok r
        | none => Except.error BendError.invalidRepositoryUrl)
      = Except.ok (repoName : String) := by
    cases aliasArg with
    | some a => exact ⟨a, rfl⟩
    | none =>
      cases hrn : repository_name name with
      | none =>
        exfalso
        unfold get at h
        rw [hrn] at h
        exact absurd h (by simp)
      | some rn =>
        exact ⟨rn, rfl⟩
  rw [get_unfold hrnE] at h
  cases hs : setupRepo w (".bend/" ++ repoName) ("https://" ++ name ++ ".git") version with
  | error e =>
    rw [hs] at h
    exact absurd h (by simp)
  | ok p =>
    obtain ⟨tag, wA⟩ := p
    rw [hs] at h
    dsimp only at h
    cases hc : getConfig wA.manifest with
    | error e =>
      rw [hc] at h
      exact absurd h (by simp)
    | ok doc =>
      rw [hc] at h
      dsimp only at h
      cases hu : updateMod doc name tag aliasArg with
      | error e =>
        rw [hu] at h
        exact absurd h (by simp)
      | ok doc' =>
        rw [hu] at h
        dsimp only at h
        injection h with h
        exact ⟨repoName, tag, wA, doc, doc', hrnE, hs, getConfig_ok_inv hc, hu, h.symm⟩

theorem setupRepo_rerun {w₁ : World} {path url tag : String} {version : Option String}
    {repo₂ : RepoState} {r : RemoteRepo}
    (hm : assoc w₁.mirrors path = some repo₂)
    (hr : assoc w₁.remotes url = some r)
    (htags : repo₂.tags = r.tags)
    (horigin : assoc repo₂.remotes "origin" = some url)
    (hhead : repo₂.head = some tag)
    (hver : version = some tag ∨ (version = none ∧ getLatestTag r.tags = .ok tag))
    (hres : (repo₂.tags.contains tag || repo₂.extraRevs.contains tag) = true)
    (hfault : w₁.checkoutFault = none) :
    setupRepo w₁ path url version = .ok (tag, w₁) := by
  rw [setupRepo_eq_existing url version hm]
  rw [setupRemote_ok_fwd repo₂ "origin" hr]
  rw [show (match assoc repo₂.remotes "origin" with
            | some u => if u = url then repo₂.remotes
                        else assocSet repo₂.remotes "origin" url
            | none => assocSet repo₂.remotes "origin" url) = repo₂.remotes from by
    rw [horigin]
    dsimp only
    rw [if_pos rfl]]
  have hrepo : (⟨r.tags, repo₂.remotes, repo₂.head, repo₂.extraRevs⟩ : RepoState)
      = repo₂ := by
    rw [← htags]
  rw [hrepo]
  rcases hver with rfl | ⟨rfl, hlt⟩
  · dsimp only
    rw [checkoutTag_ok hres hfault]
    dsimp only
    rw [show ({ repo₂ with head := some tag } : RepoState) = repo₂ from by rw [← hhead]]
    rw [assocSet_same hm]
  · dsimp only
    rw [htags, hlt]
    dsimp only
    rw [checkoutTag_ok hres hfault]
    dsimp only
    rw [show ({ repo₂ with head := some tag } : RepoState) = repo₂ from by rw [← hhead]]
    rw [assocSet_same hm]

/-- C8: fetching the same dependency with the same requested version
twice is idempotent.  After a successful `get` the mirror exists at the
deterministic local path, so the second invocation performs no fresh
initialisation (it reuses the mirror), resolves the same version, checks
out the same tag, and leaves the manifest entry — indeed the entire
world — unchanged: the second call returns exactly the world produced by
the first.  (The pre-existing manifest entry, if it is a sub-table, has
distinct keys, as in any TOML document.) -/
theorem get_idempotent (w : World) (name : String) (version aliasArg : Option String)
    (wOut : World)
    (hwf : ∀ doc deps t, w.manifest = .parsed doc →
      assoc doc "dependencies" = some (.table deps) →
      assoc deps name = some (.table t) → (t.map Prod.fst).Nodup)
    (h : get w name version aliasArg = .ok wOut) :
    get wOut name version aliasArg = .ok wOut := by
  obtain ⟨repoName, tag, wA, doc, doc', hrnE, hsetup, hman, hupd, hwOut⟩ := get_ok_inv h
  obtain ⟨repo₀, bump, r, hcase, hr, hver, hres, hfault, hwA⟩ := setupRepo_ok_inv hsetup
  subst hwA
  subst hwOut
  dsimp only at hman ⊢
  set RM := (match assoc repo₀.remotes "origin" with
             | some u => if u = ("https://" ++ name ++ ".git") then repo₀.remotes
                         else assocSet repo₀.remotes "origin" ("https://" ++ name ++ ".git")
             | none => assocSet repo₀.remotes "origin" ("https://" ++ name ++ ".git"))
    with hRM
  set repo₂ := (⟨r.tags, RM, some tag, repo₀.extraRevs⟩ : RepoState) with hrepo₂
  set W := (⟨assocSet w.mirrors (".bend/" ++ repoName) repo₂, w.remotes,
      ManifestFile.parsed doc', w.initCount + bump, w.checkoutFault⟩ : World) with hW
  rw [get_unfold hrnE]
  have hm' : assoc W.mirrors (".bend/" ++ repoName) = some repo₂ := by
    rw [hW]
    exact assoc_assocSet_self _ _ _
  have hr' : assoc W.remotes ("https://" ++ name ++ ".git") = some r := by
    rw [hW]
    exact hr
  have horigin' : assoc repo₂.remotes "origin" = some ("https://" ++ name ++ ".git") := by
    rw [hrepo₂, hRM]
    exact remotes_after_setup
  have htags' : repo₂.tags = r.tags := by rw [hrepo₂]
  have hhead' : repo₂.head = some tag := by rw [hrepo₂]
  have hres' : (repo₂.tags.contains tag || repo₂.extraRevs.contains tag) = true := by
    rw [hrepo₂]
    exact hres
  have hfault' : W.checkoutFault = none := by
    rw [hW]
    exact hfault
  rw [setupRepo_rerun hm' hr' htags' horigin' hhead' hver hres' hfault']
  dsimp only
  have hgc : getConfig W.manifest = Except.ok doc' := by
    rw [hW]
    rfl
  rw [hgc]
  dsimp only
  rw [updateMod_idem (fun deps t hdeps hentry => hwf doc deps t hman hdeps hentry) hupd]

theorem get_idempotent_witness :
    get ⟨[(".bend/r", ⟨["1.0.0"], [("origin", "https://u/r.git")], some "1.0.0", []⟩)],
         [("https://u/r.git", ⟨["1.0.0"]⟩)],
         .parsed [("module", .str "m"), ("dependencies", .table [("u/r", .str "1.0.0")])],
         1, none⟩ "u/r" (some "1.0.0") none =
      .ok ⟨[(".bend/r", ⟨["1.0.0"], [("origin", "https://u/r.git")], some "1.0.0", []⟩)],
           [("https://u/r.git", ⟨["1.0.0"]⟩)],
           .parsed [("module", .str "m"), ("dependencies", .table [("u/r", .str "1.0.0")])],
           1, none⟩ := by
  refine get_idempotent
    ⟨[], [("https://u/r.git", ⟨["1.0.0"]⟩)], .parsed [("module", .str "m")], 0, none⟩
    "u/r" (some "1.0.0") none _ ?_ ?_
  · intro doc deps t hdoc hdeps _
    injection hdoc with h1
    subst h1
    simp [assoc] at hdeps
  · rfl

end Bend
